import Mathlib

/-!
# Verification of the oxyromon reconciliation core

Shallow embedding of `src/import_roms.rs`, `src/check_roms.rs` and
`src/sevenzip.rs`. Filesystem and subprocess effects (hashing, archive
listing/extraction, prompts) are parameters (`Env`); catalog (SQLite) reads
and writes are modelled explicitly, with writes recorded as an operation
trace so that transaction semantics can be interpreted faithfully.

Paths are modelled as lists of components. Machine integers are `Nat`
(`u64` file sizes) and `Int` (`i64` catalog sizes), matching the casts in
the source (`i64::try_from(size)`).
-/

namespace Oxyromon

/-- A filesystem path, as a list of components (`<root>/<System>/<name>`). -/
abbrev FilePath' := List String

/-- The file name of a path: its last component. -/
def pathFileName (p : FilePath') : String := p.getLastD ""

/-- Split a character list at every `.` (the semantics of
`String.splitOn "."`, restated structurally so that it evaluates by
reduction). -/
def splitDots : List Char → List (List Char)
  | [] => [[]]
  | c :: cs =>
    if c = '.' then [] :: splitDots cs
    else
      match splitDots cs with
      | [] => [[c]]
      | g :: gs => (c :: g) :: gs

/-- Rust `Path::extension()`: the part of the file name after the last `.`,
`none` when there is no `.` or the name is a bare dotfile. -/
def extOf (s : String) : Option String :=
  match splitDots s.data with
  | [] => none
  | [_] => none
  | first :: rest =>
    if first.isEmpty && rest.length == 1 then none
    else some (String.mk (rest.getLastD []))

/-- Rust `str::to_lowercase` (ASCII-faithful). -/
def strToLower (s : String) : String := String.mk (s.data.map Char.toLower)

/-- Rust `PathBuf::set_extension` on a file name: replace (or append) the
extension. -/
def setExt (s e : String) : String :=
  match extOf s with
  | none => s ++ "." ++ e
  | some old =>
    String.mk (s.data.take (s.data.length - (old.data.length + 1))) ++ "." ++ e

/-- `set_extension` on a whole path: rewrite the last component. -/
def setExtPath (p : FilePath') (e : String) : FilePath' :=
  p.dropLast ++ [setExt (pathFileName p) e]

/-- Hash algorithms supported by the importer (`HashAlgorithm` in the source). -/
inductive HashAlgorithm
  | crc
  | md5
  | sha1
deriving DecidableEq, Repr

/-- A catalogued platform (`System` row): name and arcade placement flag. -/
structure Sys where
  id : Nat
  name : String
  arcade : Bool
deriving DecidableEq, Repr, Inhabited

/-- A header row: byte region skipped before hashing, at most one per system. -/
structure Header where
  id : Nat
  systemId : Nat
  len : Nat
deriving DecidableEq, Repr, Inhabited

/-- A game row: belongs to one system, may be a clone of a parent game. -/
structure Game where
  id : Nat
  systemId : Nat
  name : String
  jbfolder : Bool
  parentId : Option Nat
deriving DecidableEq, Repr, Inhabited

/-- A rom row. `size` is the declared `i64` size; digests are optional hex
strings; `romfileId` is the binding to a physical file, `parentId` marks roms
shared with a parent game. -/
structure Rom where
  id : Nat
  gameId : Nat
  name : String
  size : Int
  crc : Option String
  md5 : Option String
  sha1 : Option String
  romfileId : Option Nat
  parentId : Option Nat
deriving DecidableEq, Repr, Inhabited

/-- A romfile row: a filesystem artifact backing one or more roms. -/
structure Romfile where
  id : Nat
  path : FilePath'
  size : Nat
deriving DecidableEq, Repr, Inhabited

/-- One entry of a `7z l -slt` listing (`sevenzip::ArchiveInfo`): member
path, size, and cheap crc (empty string when the listing has none). -/
structure ArchiveInfo where
  path : String
  size : Nat
  crc : String
deriving DecidableEq, Repr, Inhabited

/-- The catalog database state. `nextRomfileId` models the autoincrement key. -/
structure Catalog where
  headers : List Header
  games : List Game
  roms : List Rom
  romfiles : List Romfile
  nextRomfileId : Nat
deriving DecidableEq, Repr, Inhabited

/-- A catalog write, as issued by the source's `database` calls.
`updateRomfilePath` is the two-argument `update_romfile` of the check flow. -/
inductive DbOp
  | createRomfile (path : FilePath') (size : Nat)
  | updateRomfile (id : Nat) (path : FilePath') (size : Nat)
  | updateRomfilePath (id : Nat) (path : FilePath')
  | updateRomRomfile (romId : Nat) (romfileId : Option Nat)
deriving DecidableEq, Repr

/-- Apply one catalog write. -/
def applyDbOp (c : Catalog) : DbOp → Catalog
  | .createRomfile p s =>
    { c with
      romfiles := c.romfiles ++ [⟨c.nextRomfileId, p, s⟩]
      nextRomfileId := c.nextRomfileId + 1 }
  | .updateRomfile i p s =>
    { c with
      romfiles := c.romfiles.map fun rf =>
        if rf.id == i then { rf with path := p, size := s } else rf }
  | .updateRomfilePath i p =>
    { c with
      romfiles := c.romfiles.map fun rf =>
        if rf.id == i then { rf with path := p } else rf }
  | .updateRomRomfile ri rfi =>
    { c with
      roms := c.roms.map fun r =>
        if r.id == ri then { r with romfileId := rfi } else r }

/-- Apply a list of catalog writes in order. -/
def applyOps (c : Catalog) (ops : List DbOp) : Catalog :=
  ops.foldl applyDbOp c

/-- An external filesystem/subprocess action, as recorded in the effect log.
`chdExtract` records the expected `(name, size)` pairs handed to `chdman`. -/
inductive FsOp
  | rename (src dst : FilePath')
  | copy (src dst : FilePath')
  | removeFile (p : FilePath')
  | extract (archive : FilePath') (entry : String) (dir : FilePath')
  | renameInArchive (archive : FilePath') (oldName newName : String)
  | chdExtract (chd dir : FilePath') (namesSizes : List (String × Nat))
  | decode (src dir : FilePath')
deriving DecidableEq, Repr

/-- A terminating failure: a propagated `SimpleResult` error, or a Rust
panic (`unwrap` of `None`). -/
inductive RErr
  | err (s : String)
  | panicked
deriving DecidableEq, Repr

/-- Execution state: current catalog view (the open connection's), the trace
of catalog writes, and the log of filesystem actions issued so far. -/
structure St where
  cat : Catalog
  ops : List DbOp
  fs : List FsOp
deriving DecidableEq, Repr

/-- The effect monad: state passing with `SimpleResult`-style errors.
Filesystem effects persist on the error path; catalog writes are traced so
that the enclosing transaction can be interpreted. -/
def M (α : Type) : Type := St → Except RErr α × St

/-- Sequencing in `M`: run `x`, feed its value to `f`, propagate errors. -/
def mBind {α β : Type} (x : M α) (f : α → M β) : M β := fun st =>
  match x st with
  | (.ok a, st') => f a st'
  | (.error e, st') => (.error e, st')

instance : Monad M where
  pure a := fun st => (.ok a, st)
  bind := mBind

/-- Record and apply one catalog write. -/
def dbWrite (op : DbOp) (st : St) : St :=
  { st with cat := applyDbOp st.cat op, ops := st.ops ++ [op] }

/-- Monadic catalog write. -/
def dbWriteM (op : DbOp) : M Unit := fun st => (.ok (), dbWrite op st)

/-- Read the current catalog view. -/
def getCat : M Catalog := fun st => (.ok st.cat, st)

/-- Environment of external collaborators: hashing, container tooling,
prompts, and filesystem outcomes. `fsOk op = some e` means the action fails
with error `e` after being attempted. -/
structure Env where
  parseArchive : FilePath' → Except String (List ArchiveInfo)
  sizeHash : FilePath' → Option Header → HashAlgorithm → Except String (Nat × String)
  chooseIdx : List (Rom × Game) → Except String (Option Nat)
  fsOk : FsOp → Option String
  fileLen : FilePath' → Nat
  isFile : FilePath' → Bool
  confirm : Bool
  decodeName : FilePath' → String
  tmpDir : FilePath'

/-- Attempt a filesystem action: it is logged, then fails or succeeds as the
environment dictates. -/
def fsAct (env : Env) (op : FsOp) : M Unit := fun st =>
  let st' := { st with fs := st.fs ++ [op] }
  match env.fsOk op with
  | some e => (.error (.err e), st')
  | none => (.ok (), st')

/-- `util::rename_file`. -/
def rename_file (env : Env) (src dst : FilePath') : M Unit :=
  fsAct env (.rename src dst)

/-- `util::copy_file`. -/
def copy_file (env : Env) (src dst : FilePath') : M Unit :=
  fsAct env (.copy src dst)

/-- `util::remove_file`. -/
def remove_file (env : Env) (p : FilePath') : M Unit :=
  fsAct env (.removeFile p)

/-- `sevenzip::parse_archive`: list the entries of a container. -/
def parse_archive (env : Env) (p : FilePath') : M (List ArchiveInfo) := fun st =>
  match env.parseArchive p with
  | .ok infos => (.ok infos, st)
  | .error e => (.error (.err e), st)

/-- `sevenzip::extract_files_from_archive` for one entry: materialize it in
`dir` and return its scratch path. -/
def extract_from_archive (env : Env) (archive : FilePath') (entry : String)
    (dir : FilePath') : M FilePath' := do
  fsAct env (.extract archive entry dir)
  pure (dir ++ [entry])

/-- `sevenzip::rename_file_in_archive`. -/
def rename_in_archive (env : Env) (archive : FilePath') (oldName newName : String) :
    M Unit :=
  fsAct env (.renameInArchive archive oldName newName)

/-- `checksum::get_size_and_hash` / `get_file_size_and_crc`: hash a concrete
file, skipping the system's header region. -/
def get_size_and_hash (env : Env) (p : FilePath') (header : Option Header)
    (alg : HashAlgorithm) : M (Nat × String) := fun st =>
  match env.sizeHash p header alg with
  | .ok r => (.ok r, st)
  | .error e => (.error (.err e), st)

/-- Modelled from the spec: `chdman` track extraction (`chdman.rs` is not in
scope). It consumes caller-supplied `(name, size)` pairs and must emit
exactly that many track files, named accordingly; a count mismatch is a hard
failure of the subprocess, surfaced as an error. -/
def extract_chd_multi (env : Env) (chd dir : FilePath')
    (namesSizes : List (String × Nat)) : M (List FilePath') := do
  fsAct env (.chdExtract chd dir namesSizes)
  pure (namesSizes.map fun ns => dir ++ [ns.1])

/-- Modelled from the spec: whole-image decode for single-track/compressed
disk images (`chdman.rs`, `maxcso.rs`, `dolphin.rs` are not in scope): one
virtual entry, decoded whole into the scratch directory. -/
def decode_whole (env : Env) (src dir : FilePath') : M FilePath' := do
  fsAct env (.decode src dir)
  pure (dir ++ [env.decodeName src])

/-- Modelled from the spec: `prompt_for_rom_game`, the injectable
disambiguation decision — a selection among the presented candidates (by
index), `none` when declined. -/
def prompt_for_rom_game (env : Env) (romsGames : List (Rom × Game)) :
    M (Option Rom) := fun st =>
  match env.chooseIdx romsGames with
  | .error e => (.error (.err e), st)
  | .ok none => (.ok none, st)
  | .ok (some i) =>
    match romsGames[i]? with
    | some rg => (.ok (some rg.1), st)
    | none => (.ok none, st)

/-! ## Catalog queries (`database.rs` is not in scope)

Modelled from the spec's external-interface contract: lookup unfiled roms by
(size, digest, system); lookup rom/game/header by id; lookup romfile by
path; enumerate a game's non-parent rom set. -/

/-- `find_romfile_by_path`: at most one romfile row per canonical path. -/
def findRomfileByPath (c : Catalog) (p : FilePath') : Option Romfile :=
  c.romfiles.find? fun rf => rf.path == p

/-- `find_game_by_id`. -/
def findGameById (c : Catalog) (i : Nat) : Game :=
  (c.games.find? fun g => g.id == i).getD default

/-- `find_header_by_system_id`. -/
def findHeaderBySystemId (c : Catalog) (i : Nat) : Option Header :=
  c.headers.find? fun h => h.systemId == i

/-- The system a rom belongs to, through its game. -/
def romSystemId (c : Catalog) (r : Rom) : Nat :=
  (findGameById c r.gameId).systemId

/-- `find_roms_by_game_id_no_parents`: a game's rom set, excluding roms
inherited from a parent game. -/
def findRomsByGameIdNoParents (c : Catalog) (gid : Nat) : List Rom :=
  c.roms.filter fun r => r.gameId == gid && r.parentId == none

/-- The digest field selected by the hash algorithm. -/
def romDigest (alg : HashAlgorithm) (r : Rom) : Option String :=
  match alg with
  | .crc => r.crc
  | .md5 => r.md5
  | .sha1 => r.sha1

/-- `find_roms_without_romfile_by_size_and_<alg>_and_system_id`: exact lookup
on (size, digest, system) among unfiled roms. -/
def findRomsWithoutRomfile (c : Catalog) (size : Nat) (hash : String)
    (systemId : Nat) (alg : HashAlgorithm) : List Rom :=
  c.roms.filter fun r =>
    r.romfileId == none && r.size == (size : Int) &&
      romDigest alg r == some hash && romSystemId c r == systemId

/-! ## Shared constants (`model.rs` / `config.rs` are not in scope) -/

/-- Container extensions routed to `import_archive` / `check_archive`. -/
def ARCHIVE_EXTENSIONS : List String := ["7z", "zip"]

def CHD_EXTENSION : String := "chd"

def CSO_EXTENSION : String := "cso"

def RVZ_EXTENSION : String := "rvz"

def CUE_EXTENSION : String := "cue"

/-- Modelled from the spec: the disc-update/DLC (PS3) extensions whose rom
names are gibberish, placed under the game's name instead. -/
def PS3_EXTENSIONS : List String := ["pkg", "rap"]

/-- The per-system placement directory `<root>/<System>`. -/
def systemDirectory (romDir : FilePath') (system : Sys) : FilePath' :=
  romDir ++ [system.name]

/-- The per-system quarantine directory `<root>/<System>/Trash`. -/
def trashDirectory (romDir : FilePath') (system : Sys) : FilePath' :=
  romDir ++ [system.name, "Trash"]

/-! ## Import flow (`import_roms.rs`) -/

/-- `find_rom_by_hash`: exact lookup on (size, digest, system) among unfiled
roms; a sole candidate matches, several go to disambiguation; a candidate
already bound to a romfile is a duplicate and yields no match. -/
def find_rom_by_hash (env : Env) (size : Nat) (hash : String) (system : Sys)
    (alg : HashAlgorithm) : M (Option Rom) := fun st =>
  match findRomsWithoutRomfile st.cat size hash system.id alg with
  | [] => (.ok none, st)
  | [rom] =>
    if rom.romfileId.isSome then (.ok none, st) else (.ok (some rom), st)
  | r₁ :: r₂ :: rest =>
    match prompt_for_rom_game env
        ((r₁ :: r₂ :: rest).map fun r => (r, findGameById st.cat r.gameId)) st with
    | (.ok (some rom), st') =>
      if rom.romfileId.isSome then (.ok none, st') else (.ok (some rom), st')
    | other => other

/-- `create_or_update_romfile`: upsert the romfile row at `path` (an existing
row keeps its path and only refreshes its size), then bind every given rom
to that row. -/
def create_or_update_romfile (env : Env) (path : FilePath') (roms : List Rom) :
    M Unit := fun st =>
  let (rfId, st₁) :=
    match findRomfileByPath st.cat path with
    | some rf => (rf.id, dbWrite (.updateRomfile rf.id rf.path (env.fileLen path)) st)
    | none => (st.cat.nextRomfileId, dbWrite (.createRomfile path (env.fileLen path)) st)
  (.ok (), roms.foldl (fun s rom => dbWrite (.updateRomRomfile rom.id (some rfId)) s) st₁)

/-- `move_to_trash`: move the file into `<root>/<System>/Trash` and upsert
the romfile row at the trash path. -/
def move_to_trash (env : Env) (romDir : FilePath') (system : Sys)
    (p : FilePath') : M Unit := do
  let newPath := trashDirectory romDir system ++ [pathFileName p]
  rename_file env p newPath
  fun st =>
    match findRomfileByPath st.cat newPath with
    | some rf => (.ok (), dbWrite (.updateRomfile rf.id newPath (env.fileLen newPath)) st)
    | none => (.ok (), dbWrite (.createRomfile newPath (env.fileLen newPath)) st)

/-- The per-entry digest step of `import_archive`: when the system has a
header, the listed crc is absent, or the selected algorithm is not CRC, the
entry is materialized to scratch and re-hashed; otherwise the listing's
(size, crc) is used directly. -/
def entry_size_hash (env : Env) (header : Option Header) (alg : HashAlgorithm)
    (archivePath : FilePath') (info : ArchiveInfo) : M (Nat × String) :=
  if header.isSome || info.crc == "" || alg != HashAlgorithm.crc then do
    let extracted ← extract_from_archive env archivePath info.path env.tmpDir
    let sh ← get_size_and_hash env extracted header alg
    remove_file env extracted
    pure sh
  else
    pure (info.size, info.crc)

/-- `HashSet::insert` on the accumulated game ids. -/
def insertGid (gids : List Nat) (g : Nat) : List Nat :=
  if gids.contains g then gids else gids ++ [g]

/-- The resolution loop of `import_archive`: hash each entry, look it up
among unfiled roms, accumulate matches; an unmatched entry quarantines the
whole container only when it is the container's sole entry (`total = 1`). -/
def resolveEntries (env : Env) (romDir : FilePath') (system : Sys)
    (header : Option Header) (alg : HashAlgorithm) (archivePath : FilePath')
    (total : Nat) :
    List ArchiveInfo → List (Rom × ArchiveInfo) → List Nat →
      M (List (Rom × ArchiveInfo) × List Nat)
  | [], pairs, gids => pure (pairs, gids)
  | info :: rest, pairs, gids => do
    let sh ← entry_size_hash env header alg archivePath info
    let rom? ← find_rom_by_hash env sh.1 sh.2 system alg
    match rom? with
    | some rom =>
      resolveEntries env romDir system header alg archivePath total rest
        (pairs ++ [(rom, info)]) (insertGid gids rom.gameId)
    | none => do
      if total == 1 then move_to_trash env romDir system archivePath
      resolveEntries env romDir system header alg archivePath total rest pairs gids

/-- The repack renames: each entry whose name differs from its rom's catalog
name is renamed inside the container. -/
def rename_mismatched (env : Env) (archivePath : FilePath') :
    List (Rom × ArchiveInfo) → M Unit
  | [] => pure ()
  | (rom, info) :: rest => do
    if info.path != rom.name then rename_in_archive env archivePath info.path rom.name
    rename_mismatched env archivePath rest

/-- The canonical destination of a whole-game repacked container: the
game-derived name for a multi-entry container or a single rom with PS3 or
arcade placement, else the single rom's name with the container extension. -/
def repack_path (sysDir : FilePath') (system : Sys) (romfileExtension : String)
    (gameName : String) (pairs : List (Rom × ArchiveInfo)) : FilePath' :=
  match pairs with
  | [(rom, _)] =>
    let romExt := strToLower ((extOf rom.name).getD "")
    if system.arcade || PS3_EXTENSIONS.contains romExt then
      sysDir ++ [gameName ++ "." ++ romfileExtension]
    else
      setExtPath (sysDir ++ [rom.name]) romfileExtension
  | _ => sysDir ++ [gameName ++ "." ++ romfileExtension]

/-- The per-entry destination in the non-repack path of `import_archive`
(and for plain files): arcade or jbfolder games file under a per-game
subdirectory; PS3 update/DLC extensions use the game's name; others the
rom's name. -/
def placeDest (cat : Catalog) (sysDir : FilePath') (system : Sys)
    (romfileExtension : String) (rom : Rom) : FilePath' :=
  let game := findGameById cat rom.gameId
  if system.arcade || game.jbfolder then
    sysDir ++ [game.name, rom.name]
  else if PS3_EXTENSIONS.contains romfileExtension then
    sysDir ++ [game.name ++ "." ++ romfileExtension]
  else
    sysDir ++ [rom.name]

/-- The non-repack tail of `import_archive`: each matched entry is extracted
to scratch, copied to its canonical destination, and backed by its own
romfile row; the container itself is left in place. -/
def per_entry_place (env : Env) (sysDir : FilePath') (system : Sys)
    (romfileExtension : String) (archivePath : FilePath') :
    List (Rom × ArchiveInfo) → M Unit
  | [] => pure ()
  | (rom, info) :: rest => do
    let extracted ← extract_from_archive env archivePath info.path env.tmpDir
    let cat ← getCat
    let newPath := placeDest cat sysDir system romfileExtension rom
    copy_file env extracted newPath
    create_or_update_romfile env newPath [rom]
    per_entry_place env sysDir system romfileExtension archivePath rest

/-- The placement decision of `import_archive`, after resolution: either
repack the container whole (every entry matched, one game, and that game's
complete non-parent rom set is covered — read from the connection's current
view) or place matched entries individually. -/
def archive_place (env : Env) (sysDir : FilePath') (system : Sys)
    (romfileExtension : String) (archivePath : FilePath') (infosLen : Nat)
    (pairs : List (Rom × ArchiveInfo)) (gids : List Nat) : M Unit := fun st =>
  (if pairs.length == infosLen && gids.length == 1 then
    if ((((findRomsByGameIdNoParents st.cat (gids.getLastD 0)).map (·.id)).filter
        fun i => !((pairs.map fun p => p.1.id).contains i)).isEmpty) then
      (do
        rename_mismatched env archivePath pairs
        rename_file env archivePath
          (repack_path sysDir system romfileExtension
            (findGameById st.cat (gids.getLastD 0)).name pairs)
        create_or_update_romfile env
          (repack_path sysDir system romfileExtension
            (findGameById st.cat (gids.getLastD 0)).name pairs)
          (pairs.map (·.1)) : M Unit)
    else
      per_entry_place env sysDir system romfileExtension archivePath pairs
  else
    per_entry_place env sysDir system romfileExtension archivePath pairs) st

/-- `import_archive`: resolve every entry, then place per
`archive_place`. -/
def import_archive (env : Env) (romDir sysDir : FilePath') (system : Sys)
    (header : Option Header) (archivePath : FilePath')
    (romfileExtension : String) (alg : HashAlgorithm) : M Unit := do
  let infos ← parse_archive env archivePath
  let (pairs, gids) ←
    resolveEntries env romDir system header alg archivePath infos.length infos [] []
  archive_place env sysDir system romfileExtension archivePath infos.length pairs gids

/-- Hash each extracted track file in turn, removing it afterwards. -/
def hash_tracks (env : Env) (header : Option Header) (alg : HashAlgorithm) :
    List FilePath' → M (List String)
  | [] => pure []
  | p :: rest => do
    let sh ← get_size_and_hash env p header alg
    remove_file env p
    let hs ← hash_tracks env header alg rest
    pure (sh.2 :: hs)

/-- The track comparison of `import_chd`: `&hashes[i] != rom.crc.as_ref().unwrap()`,
short-circuiting on the first mismatch; a rom without a crc panics. -/
def tracks_mismatch : List (Rom × String) → Except RErr Bool
  | [] => .ok false
  | (rom, h) :: rest =>
    match rom.crc with
    | none => .error .panicked
    | some c => if c != h then .ok true else tracks_mismatch rest

/-- The verdict step of `import_chd`'s multiple-tracks mode: compare each
track digest against its rom's recorded crc; one mismatch quarantines the
whole image (the cue is untouched), and only a clean pass places cue and
image and records their two romfile rows. -/
def chd_multi_finish (env : Env) (romDir sysDir : FilePath') (system : Sys)
    (chdPath cuePath : FilePath') (cueRom : Rom) (roms : List Rom)
    (hashes : List String) : M Unit :=
  match tracks_mismatch (roms.zip hashes) with
  | .error e => fun st => (.error e, st)
  | .ok true => move_to_trash env romDir system chdPath
  | .ok false => do
    rename_file env cuePath (sysDir ++ [cueRom.name])
    rename_file env chdPath (setExtPath (sysDir ++ [cueRom.name]) CHD_EXTENSION)
    create_or_update_romfile env (sysDir ++ [cueRom.name]) [cueRom]
    create_or_update_romfile env
      (setExtPath (sysDir ++ [cueRom.name]) CHD_EXTENSION) roms

/-- The multiple-tracks mode of `import_chd`, after the cue lookup: an
unmatched cue quarantines the cue file itself; a matched cue decodes the
tracks against the rest of its game's non-parent rom set and hands the
hashes to the verdict step. -/
def chd_multi_mode (env : Env) (romDir sysDir : FilePath') (system : Sys)
    (header : Option Header) (alg : HashAlgorithm) (chdPath cuePath : FilePath') :
    Option Rom → M Unit
  | none => move_to_trash env romDir system cuePath
  | some cueRom => do
    let cat ← getCat
    let roms := (findRomsByGameIdNoParents cat cueRom.gameId).filter
      fun r => r.id != cueRom.id
    let namesSizes := roms.map fun r => (r.name, r.size.toNat)
    let binPaths ← extract_chd_multi env chdPath env.tmpDir namesSizes
    let hashes ← hash_tracks env header alg binPaths
    chd_multi_finish env romDir sysDir system chdPath cuePath cueRom roms hashes

/-- `import_chd`: with a companion cue sheet, the cue resolves its own rom
and the import continues per `chd_multi_mode`; without a cue, single-track
mode. -/
def import_chd (env : Env) (romDir sysDir : FilePath') (system : Sys)
    (header : Option Header) (chdPath : FilePath') (alg : HashAlgorithm) :
    M Unit := do
  let cuePath := setExtPath chdPath CUE_EXTENSION
  if env.isFile cuePath then do
    let sh ← get_size_and_hash env cuePath header alg
    let cueRom? ← find_rom_by_hash env sh.1 sh.2 system alg
    chd_multi_mode env romDir sysDir system header alg chdPath cuePath cueRom?
  else do
    let binPath ← decode_whole env chdPath env.tmpDir
    let sh ← get_size_and_hash env binPath header alg
    remove_file env binPath
    let rom? ← find_rom_by_hash env sh.1 sh.2 system alg
    match rom? with
    | none => move_to_trash env romDir system chdPath
    | some rom => do
      let newChdPath := setExtPath (sysDir ++ [rom.name]) CHD_EXTENSION
      rename_file env chdPath newChdPath
      create_or_update_romfile env newChdPath [rom]

/-- `import_cso`: decode the image whole, hash, resolve, place or
quarantine. -/
def import_cso (env : Env) (romDir sysDir : FilePath') (system : Sys)
    (header : Option Header) (csoPath : FilePath') (alg : HashAlgorithm) :
    M Unit := do
  let isoPath ← decode_whole env csoPath env.tmpDir
  let sh ← get_size_and_hash env isoPath header alg
  remove_file env isoPath
  let rom? ← find_rom_by_hash env sh.1 sh.2 system alg
  match rom? with
  | none => move_to_trash env romDir system csoPath
  | some rom => do
    let newCsoPath := setExtPath (sysDir ++ [rom.name]) CSO_EXTENSION
    rename_file env csoPath newCsoPath
    create_or_update_romfile env newCsoPath [rom]

/-- `import_rvz`: decode the image whole, hash, resolve, place or
quarantine. -/
def import_rvz (env : Env) (romDir sysDir : FilePath') (system : Sys)
    (header : Option Header) (rvzPath : FilePath') (alg : HashAlgorithm) :
    M Unit := do
  let isoPath ← decode_whole env rvzPath env.tmpDir
  let sh ← get_size_and_hash env isoPath header alg
  remove_file env isoPath
  let rom? ← find_rom_by_hash env sh.1 sh.2 system alg
  match rom? with
  | none => move_to_trash env romDir system rvzPath
  | some rom => do
    let newRvzPath := setExtPath (sysDir ++ [rom.name]) RVZ_EXTENSION
    rename_file env rvzPath newRvzPath
    create_or_update_romfile env newRvzPath [rom]

/-- `import_other`: hash the plain file, resolve, move it to its canonical
destination or quarantine it. -/
def import_other (env : Env) (romDir sysDir : FilePath') (system : Sys)
    (header : Option Header) (path : FilePath') (romfileExtension : String)
    (alg : HashAlgorithm) : M Unit := do
  let sh ← get_size_and_hash env path header alg
  let rom? ← find_rom_by_hash env sh.1 sh.2 system alg
  match rom? with
  | none => move_to_trash env romDir system path
  | some rom => do
    let cat ← getCat
    let newPath := placeDest cat sysDir system romfileExtension rom
    rename_file env path newPath
    create_or_update_romfile env newPath [rom]

/-- The body of `import_rom`, run inside its transaction: skip paths already
registered, else dispatch on the (lowercased) extension. -/
def import_rom_body (env : Env) (romDir : FilePath') (system : Sys)
    (header : Option Header) (path : FilePath') (alg : HashAlgorithm) :
    M Unit := fun st =>
  if (findRomfileByPath st.cat path).isSome then (.ok (), st)
  else
    let ext := strToLower ((extOf (pathFileName path)).getD "")
    let sysDir := systemDirectory romDir system
    (if ARCHIVE_EXTENSIONS.contains ext then
      import_archive env romDir sysDir system header path ext alg
    else if ext == CHD_EXTENSION then
      import_chd env romDir sysDir system header path alg
    else if ext == CSO_EXTENSION then
      import_cso env romDir sysDir system header path alg
    else if ext == RVZ_EXTENSION then
      import_rvz env romDir sysDir system header path alg
    else
      import_other env romDir sysDir system header path ext alg) st

/-- `import_rom`: one catalog transaction per top-level input. The body runs
against the transaction's view; `commit_transaction` publishes it at the
end, and an error drops the transaction, rolling every catalog write back
(filesystem effects persist). -/
def import_rom (env : Env) (romDir : FilePath') (system : Sys)
    (header : Option Header) (path : FilePath') (alg : HashAlgorithm)
    (c : Catalog) (fs₀ : List FsOp) :
    Except RErr Unit × Catalog × List FsOp :=
  match import_rom_body env romDir system header path alg ⟨c, [], fs₀⟩ with
  | (.ok _, st) => (.ok (), st.cat, st.fs)
  | (.error e, st) => (.error e, c, st.fs)

/-- The loop of `main` over the input paths: each is imported in turn, and
the first error aborts the run, leaving earlier committed inputs in place. -/
def importRoms (env : Env) (romDir : FilePath') (system : Sys)
    (header : Option Header) (alg : HashAlgorithm) :
    List FilePath' → Catalog → List FsOp →
      Except RErr Unit × Catalog × List FsOp
  | [], c, fs => (.ok (), c, fs)
  | p :: rest, c, fs =>
    match import_rom env romDir system header p alg c fs with
    | (.ok _, c', fs') => importRoms env romDir system header alg rest c' fs'
    | (.error e, c', fs') => (.error e, c', fs')

/-! ## Check flow (`check_roms.rs`) -/

/-- The per-entry digest step of `check_archive`: the check flow always
hashes with CRC, so the entry is materialized and re-hashed exactly when the
system has a header or the listed crc is absent. -/
def entry_size_crc (env : Env) (header : Option Header)
    (archivePath : FilePath') (info : ArchiveInfo) : M (Nat × String) :=
  if header.isSome || info.crc == "" then do
    let extracted ← extract_from_archive env archivePath info.path env.tmpDir
    let sc ← get_size_and_hash env extracted header HashAlgorithm.crc
    remove_file env extracted
    pure sc
  else
    pure (info.size, info.crc)

/-- `roms.iter().position(|rom| rom.name == info.path)` followed by
`roms.remove(index)`: claim the first rom of that name out of the pool. -/
def takeByName (name : String) : List Rom → Option (Rom × List Rom)
  | [] => none
  | r :: rs =>
    if r.name == name then some (r, rs)
    else
      match takeByName name rs with
      | none => none
      | some (x, rest) => some (x, r :: rest)

/-- The entry loop of `check_archive`: each entry claims the backing rom of
its exact name (the position `unwrap` panics when there is none) and any
size or crc disagreement is Invalid. -/
def check_archive_entries (env : Env) (header : Option Header)
    (archivePath : FilePath') : List ArchiveInfo → List Rom → M Bool
  | [], _ => pure true
  | info :: rest, pool => do
    let sc ← entry_size_crc env header archivePath info
    match takeByName info.path pool with
    | none => fun st => (.error .panicked, st)
    | some (rom, pool') =>
      if (sc.1 : Int) != rom.size || rom.crc != some sc.2 then pure false
      else check_archive_entries env header archivePath rest pool'

/-- `check_archive`: an entry count differing from the number of backing
roms is Invalid outright; otherwise every entry is checked in turn. -/
def check_archive (env : Env) (header : Option Header)
    (archivePath : FilePath') (roms : List Rom) : M Bool := do
  let infos ← parse_archive env archivePath
  if infos.length != roms.length then pure false
  else check_archive_entries env header archivePath infos roms

/-- `check_chd`: re-extract every track and compare each crc. -/
def check_chd (env : Env) (header : Option Header) (chdPath : FilePath')
    (roms : List Rom) : M Bool := do
  let namesSizes := roms.map fun r => (r.name, r.size.toNat)
  let binPaths ← extract_chd_multi env chdPath env.tmpDir namesSizes
  let crcs ← hash_tracks env header HashAlgorithm.crc binPaths
  pure (!((roms.zip crcs).any fun p => p.1.crc != some p.2))

/-- `check_cso`: decode whole and compare size and crc of the sole rom. -/
def check_cso (env : Env) (header : Option Header) (csoPath : FilePath')
    (rom : Rom) : M Bool := do
  let isoPath ← decode_whole env csoPath env.tmpDir
  let sc ← get_size_and_hash env isoPath header HashAlgorithm.crc
  remove_file env isoPath
  pure ((sc.1 : Int) == rom.size && rom.crc == some sc.2)

/-- `check_other`: re-hash the plain file and compare size and crc. -/
def check_other (env : Env) (header : Option Header) (path : FilePath')
    (rom : Rom) : M Bool := do
  let sc ← get_size_and_hash env path header HashAlgorithm.crc
  pure ((sc.1 : Int) == rom.size && rom.crc == some sc.2)

/-- The classification step of `check_system`'s loop for one romfile: the
grouped backing roms are claimed (`remove(..).unwrap()` panics when there
are none), the extension dispatches (`extension().unwrap()`, not
lowercased), and single-rom kinds take `roms.get(0).unwrap()`. -/
def classify_romfile (env : Env) (header : Option Header) (rf : Romfile)
    (roms : List Rom) : M Bool :=
  match roms with
  | [] => fun st => (.error .panicked, st)
  | rom₀ :: _ =>
    match extOf (pathFileName rf.path) with
    | none => fun st => (.error .panicked, st)
    | some ext =>
      if ARCHIVE_EXTENSIONS.contains ext then
        check_archive env header rf.path roms
      else if ext == CHD_EXTENSION then
        check_chd env header rf.path roms
      else if ext == CSO_EXTENSION then
        check_cso env header rf.path rom₀
      else
        check_other env header rf.path rom₀

/-- The collection loop of `check_system`: every Invalid romfile is batched
into a (record, trash path) move. -/
def collect_moves (env : Env) (header : Option Header) (trashDir : FilePath')
    (romsOf : Romfile → List Rom) :
    List Romfile → M (List (Romfile × FilePath'))
  | [] => pure []
  | rf :: rest => do
    let ok ← classify_romfile env header rf (romsOf rf)
    let moves ← collect_moves env header trashDir romsOf rest
    pure (if ok then moves else (rf, trashDir ++ [pathFileName rf.path]) :: moves)

/-- The relocation loop of `check_system`, run only after confirmation: move
each batched file and update its romfile row to the trash path. -/
def apply_moves (env : Env) : List (Romfile × FilePath') → M Unit
  | [] => pure ()
  | (rf, newPath) :: rest => do
    rename_file env rf.path newPath
    dbWriteM (.updateRomfilePath rf.id newPath)
    apply_moves env rest

/-- `find_roms_with_romfile_by_system_id`: the system's filed roms. -/
def romsWithRomfileBySystem (c : Catalog) (systemId : Nat) : List Rom :=
  c.roms.filter fun r => r.romfileId.isSome && romSystemId c r == systemId

/-- `find_romfiles_by_system_id`: the romfiles backing the system's filed
roms. -/
def romfilesBySystem (c : Catalog) (systemId : Nat) : List Romfile :=
  c.romfiles.filter fun rf =>
    (romsWithRomfileBySystem c systemId).any fun r => r.romfileId == some rf.id

/-- `check_system`: classify every recorded romfile of the system, then —
only if something is Invalid and the user confirms (or the auto-confirm
flag is set) — relocate the batched files under Trash and update their
rows. The check flow opens no transaction, so effects persist as issued. -/
def check_system (env : Env) (romDir : FilePath') (system : Sys)
    (c : Catalog) (fs₀ : List FsOp) : Except RErr Unit × St :=
  (do
    let cat ← getCat
    let trashDir := trashDirectory romDir system
    let header := findHeaderBySystemId cat system.id
    let romsWith := romsWithRomfileBySystem cat system.id
    let romfiles := romfilesBySystem cat system.id
    let romsOf := fun rf : Romfile =>
      romsWith.filter fun r : Rom => r.romfileId == some rf.id
    let moves ← collect_moves env header trashDir romsOf romfiles
    if moves.isEmpty then pure ()
    else if env.confirm then apply_moves env moves
    else pure ()) ⟨c, [], fs₀⟩

/-! ## Concrete test fixtures

Small closed catalogs, environments and containers used to evaluate the
embedded functions at concrete inputs. -/

/-- A baseline environment: no archives, no files, every filesystem action
succeeds, prompts decline. -/
def envBase : Env where
  parseArchive := fun _ => .error "not an archive"
  sizeHash := fun _ _ _ => .error "unreadable"
  chooseIdx := fun _ => .ok none
  fsOk := fun _ => none
  fileLen := fun _ => 0
  isFile := fun _ => false
  confirm := false
  decodeName := fun _ => "image.iso"
  tmpDir := ["tmp"]

/-- A plain (non-arcade) system. -/
def sysA : Sys := ⟨0, "S", false⟩

/-- One game of `sysA`. -/
def gameA : Game := ⟨0, 0, "Game A", false, none⟩

/-- The sole rom of `gameA`, unfiled. -/
def romA : Rom := ⟨1, 0, "a.bin", 10, some "cafecafe", none, none, none, none⟩

/-- Catalog holding exactly `gameA` with `romA`. -/
def catA : Catalog := ⟨[], [gameA], [romA], [], 1⟩

/-- An archive entry whose content is `romA` under the name `x.bin`. -/
def entX : ArchiveInfo := ⟨"x.bin", 10, "cafecafe"⟩

/-- A second archive entry with identical size and digest, named `y.bin`. -/
def entY : ArchiveInfo := ⟨"y.bin", 10, "cafecafe"⟩

/-- Environment serving a two-entry archive whose entries both carry
`romA`'s size and digest. -/
def envA : Env := { envBase with parseArchive := fun _ => .ok [entX, entY] }

/-- A second rom of `gameA`, never present in any test container. -/
def romB2 : Rom := ⟨2, 0, "b2.bin", 11, some "deadbeef", none, none, none, none⟩

/-- Catalog where `gameA` has two roms, so a one-entry container can never
cover the full game. -/
def catB : Catalog := ⟨[], [gameA], [romA, romB2], [], 1⟩

/-- Environment serving the one-entry archive `[entX]`. -/
def envB : Env := { envBase with parseArchive := fun _ => .ok [entX] }

/-- An archive entry matching nothing in any test catalog. -/
def entZ : ArchiveInfo := ⟨"z.bin", 99, "00000000"⟩

/-- Environment serving the one-entry archive `[entZ]`. -/
def envC : Env := { envBase with parseArchive := fun _ => .ok [entZ] }

/-- The cue rom of a two-rom multi-track game. -/
def cueRomW : Rom := ⟨1, 0, "g.cue", 20, some "11111111", none, none, none, none⟩

/-- The sole track rom of that game. -/
def trackRomW : Rom := ⟨2, 0, "g (Track 1).bin", 100, some "22222222", none, none, none, none⟩

/-- Catalog holding the multi-track game. -/
def catCue : Catalog := ⟨[], [gameA], [cueRomW, trackRomW], [], 1⟩

/-- Environment where `inbox/g.cue` exists, hashes to the cue rom, and the
decoded track hashes to a wrong digest. -/
def envCue : Env := { envBase with
  isFile := fun p => p == ["inbox", "g.cue"]
  sizeHash := fun p _ _ =>
    if p == ["inbox", "g.cue"] then .ok (20, "11111111")
    else .ok (100, "33333333") }

/-- A romfile row already registered at `roms/S/Test.rom`. -/
def rfD : Romfile := ⟨5, ["roms", "S", "Test.rom"], 10⟩

/-- Catalog with `rfD` registered. -/
def catD : Catalog := ⟨[], [], [], [rfD], 6⟩

/-- An archive entry with a usable listing crc. -/
def entU : ArchiveInfo := ⟨"u.bin", 7, "12ab34cd"⟩

/-- A plain romfile of `sysA` whose on-disk content has drifted. -/
def rfW : Romfile := ⟨7, ["roms", "S", "Test.rom"], 256⟩

/-- The filed rom backed by `rfW`. -/
def romW : Rom := ⟨9, 0, "Test.rom", 256, some "aaaa1111", none, none, some 7, none⟩

/-- Catalog for the check scenario: one filed rom behind `rfW`. -/
def catW : Catalog := ⟨[], [gameA], [romW], [rfW], 8⟩

/-- Environment whose re-hash reports a wrong size (the file was truncated
or grew), with auto-confirm set. -/
def envW : Env := { envBase with
  sizeHash := fun _ _ _ => .ok (512, "aaaa1111")
  confirm := true }

/-! ## Derived notions used in the statements -/

/-- The path a catalog write touches a romfile row at, if any. -/
def dbOpPath : DbOp → Option FilePath'
  | .createRomfile p _ => some p
  | .updateRomfile _ p _ => some p
  | .updateRomfilePath _ p => some p
  | .updateRomRomfile _ _ => none

/-- The whole-game repack test of `import_archive`, flattened: every entry
matched, one game, and that game's complete non-parent rom set is covered by
the matched set. -/
def repack_condition (cat : Catalog) (infosLen : Nat)
    (pairs : List (Rom × ArchiveInfo)) (gids : List Nat) : Bool :=
  pairs.length == infosLen && gids.length == 1 &&
    (((findRomsByGameIdNoParents cat (gids.getLastD 0)).map (·.id)).filter
      fun i => !((pairs.map fun p => p.1.id).contains i)).isEmpty

/-- Transaction consistency of a computation: every run extends the write
trace by some suffix, and the resulting catalog view equals that suffix
replayed over the starting view — so committing the trace reproduces the
view exactly, and dropping the transaction rolls the view back. -/
def Consistent {α : Type} (m : M α) : Prop :=
  ∀ st : St, ∃ newOps : List DbOp,
    (m st).2.ops = st.ops ++ newOps ∧ (m st).2.cat = applyOps st.cat newOps

/-- A check-flow step with a fixed outcome: the state is only extended by a
fixed, rename-free filesystem log — the catalog is neither read nor
written, and no file is moved. -/
def CheckStepRes {α : Type} (m : M α) (res : Except RErr α) : Prop :=
  ∃ Δ : List FsOp, (∀ src dst, FsOp.rename src dst ∉ Δ) ∧
    ∀ st : St, m st = (res, { st with fs := st.fs ++ Δ })

/-! ## Monad evaluation lemmas -/

instance {ε α : Type} [DecidableEq ε] [DecidableEq α] : DecidableEq (Except ε α)
  | .error e, .error e' => decidable_of_iff (e = e') (by simp)
  | .error _, .ok _ => isFalse (by simp)
  | .ok _, .error _ => isFalse (by simp)
  | .ok a, .ok b => decidable_of_iff (a = b) (by simp)

theorem pure_eval {α : Type} (a : α) (st : St) : (pure a : M α) st = (.ok a, st) := rfl

theorem bind_eval {α β : Type} (x : M α) (f : α → M β) (st : St) :
    (x >>= f) st = match x st with
      | (.ok a, st') => f a st'
      | (.error e, st') => (.error e, st') := rfl

theorem bind_ok {α β : Type} {x : M α} {f : α → M β} {st st₁ : St} {a : α}
    (h : x st = (.ok a, st₁)) : (x >>= f) st = f a st₁ := by
  rw [bind_eval, h]

theorem bind_error {α β : Type} {x : M α} {f : α → M β} {st st₁ : St} {e : RErr}
    (h : x st = (.error e, st₁)) : (x >>= f) st = (.error e, st₁) := by
  rw [bind_eval, h]

theorem fsAct_eval (env : Env) (op : FsOp) (st : St) :
    fsAct env op st = match env.fsOk op with
      | some e => (.error (.err e), { st with fs := st.fs ++ [op] })
      | none => (.ok (), { st with fs := st.fs ++ [op] }) := by
  unfold fsAct
  cases env.fsOk op <;> rfl

theorem get_size_and_hash_eval (env : Env) (p : FilePath') (header : Option Header)
    (alg : HashAlgorithm) (st : St) :
    get_size_and_hash env p header alg st = match env.sizeHash p header alg with
      | .ok r => (.ok r, st)
      | .error e => (.error (.err e), st) := rfl

theorem parse_archive_eval (env : Env) (p : FilePath') (st : St) :
    parse_archive env p st = match env.parseArchive p with
      | .ok infos => (.ok infos, st)
      | .error e => (.error (.err e), st) := rfl

/-! ## Shared lemmas about resolution -/

/-- A selection returned by the disambiguation prompt is one of the
presented candidates, and prompting mutates nothing. -/
theorem prompt_for_rom_game_mem {env : Env} {l : List (Rom × Game)}
    {st st' : St} {r : Rom}
    (h : prompt_for_rom_game env l st = (.ok (some r), st')) :
    (∃ g, (r, g) ∈ l) ∧ st' = st := by
  unfold prompt_for_rom_game at h
  split at h
  · simp at h
  · simp at h
  · split at h
    · rename_i i rg hg
      simp only [Prod.mk.injEq, Except.ok.injEq, Option.some.injEq] at h
      exact ⟨⟨rg.2, h.1 ▸ List.getElem?_mem hg⟩, h.2.symm⟩
    · simp at h

/-- A rom returned by `find_rom_by_hash` is unfiled, comes from the exact
(size, digest, system) query on the current catalog, and the lookup mutates
nothing. -/
theorem find_rom_by_hash_sound {env : Env} {size : Nat} {hash : String}
    {system : Sys} {alg : HashAlgorithm} {st st' : St} {rom : Rom}
    (h : find_rom_by_hash env size hash system alg st = (.ok (some rom), st')) :
    rom.romfileId = none ∧
      rom ∈ findRomsWithoutRomfile st.cat size hash system.id alg ∧ st' = st := by
  unfold find_rom_by_hash at h
  split at h
  · simp at h
  · rename_i r₁ hq
    split at h
    · simp at h
    · rename_i hs
      simp only [Prod.mk.injEq, Except.ok.injEq, Option.some.injEq] at h
      obtain ⟨h1, h2⟩ := h
      refine ⟨h1 ▸ Option.not_isSome_iff_eq_none.mp hs, ?_, h2.symm⟩
      rw [hq, ← h1]
      exact List.mem_singleton.mpr rfl
  · rename_i r₁ r₂ rest' hq
    split at h
    · rename_i rc stP hp
      split at h
      · simp at h
      · rename_i hs
        simp only [Prod.mk.injEq, Except.ok.injEq, Option.some.injEq] at h
        obtain ⟨h1, h2⟩ := h
        obtain ⟨⟨g, hmem⟩, hstP⟩ := prompt_for_rom_game_mem hp
        obtain ⟨r₀, hr₀, hr₀eq⟩ := List.mem_map.mp hmem
        refine ⟨h1 ▸ Option.not_isSome_iff_eq_none.mp hs, ?_, h2.symm.trans hstP⟩
        rw [hq, ← h1]
        have : r₀ = rc := (Prod.mk.injEq .. ▸ hr₀eq).1
        exact this ▸ hr₀
    · rename_i hno
      exact absurd h (hno rom st')

/-! ## C4: idempotence on registered paths -/

/-- **C4**: for every input path for which a romfile row with exactly that
path already exists, `import_rom` returns success with the catalog and the
filesystem untouched — no hashing, no move, no new or updated row. -/
theorem c4_import_idempotent (env : Env) (romDir : FilePath') (system : Sys)
    (header : Option Header) (path : FilePath') (alg : HashAlgorithm)
    (c : Catalog) (fs₀ : List FsOp) (rf : Romfile)
    (hreg : findRomfileByPath c path = some rf) :
    import_rom env romDir system header path alg c fs₀ = (.ok (), c, fs₀) := by
  unfold import_rom import_rom_body
  simp [hreg]

/-- Concrete instance of C4: re-importing the registered path `roms/S/Test.rom`
changes nothing. -/
theorem c4_import_idempotent_witness :
    import_rom envBase ["roms"] sysA none (["roms", "S", "Test.rom"]) .crc catD []
      = (.ok (), catD, []) :=
  c4_import_idempotent envBase ["roms"] sysA none (["roms", "S", "Test.rom"])
    .crc catD [] rfD (by decide)

/-! ## C2: no double claim within one resolution pass — refuted -/

/-- **C2** (counterexample): in one `import_archive` resolution pass over the
two-entry container `[entX, entY]`, whose entries have identical size and
digest, both entries are resolved to the same rom `romA` — the claimed
removal of claimed candidates from the pool does not happen. -/
theorem c2_counterexample :
    (resolveEntries envA ["roms"] sysA none .crc (["inbox", "a.7z"]) 2
        [entX, entY] [] [] ⟨catA, [], []⟩).1
      = .ok ([(romA, entX), (romA, entY)], [0]) := by decide

/-- **C2** (amended): within one resolution pass the candidate pool is
re-queried from the catalog for each entry and excludes roms already bound
to a romfile, but a rom matched by an earlier entry of the same pass is not
removed — resolution mutates nothing — so two entries with identical
(size, digest) can be resolved to the same rom. -/
theorem c2_amended (env : Env) (size : Nat) (hash : String) (system : Sys)
    (alg : HashAlgorithm) (st st' : St) (rom : Rom)
    (h : find_rom_by_hash env size hash system alg st = (.ok (some rom), st')) :
    rom.romfileId = none ∧
      rom ∈ findRomsWithoutRomfile st.cat size hash system.id alg ∧ st' = st :=
  find_rom_by_hash_sound h

/-- Concrete instance of the amended C2. -/
theorem c2_amended_witness :
    romA.romfileId = none ∧
      romA ∈ findRomsWithoutRomfile catA 10 "cafecafe" sysA.id .crc ∧
      (⟨catA, [], []⟩ : St) = ⟨catA, [], []⟩ :=
  c2_amended envA 10 "cafecafe" sysA .crc ⟨catA, [], []⟩ ⟨catA, [], []⟩ romA
    (by decide)

/-! ## C7: cheap-digest usability decides materialization -/

/-- The materialize-and-rehash branch shared by import and check: whatever
the hashing outcome, the filesystem log grows by a block that starts with
the extraction of the entry. -/
theorem entry_extract_branch (env : Env) (header : Option Header)
    (alg : HashAlgorithm) (archivePath : FilePath') (entry : String) (st : St) :
    ∃ Δ, (((do
        let extracted ← extract_from_archive env archivePath entry env.tmpDir
        let sh ← get_size_and_hash env extracted header alg
        remove_file env extracted
        pure sh) : M (Nat × String)) st).2.fs = st.fs ++ Δ ∧
      FsOp.extract archivePath entry env.tmpDir ∈ Δ := by
  cases hfs : env.fsOk (.extract archivePath entry env.tmpDir) with
  | some e =>
    exact ⟨[.extract archivePath entry env.tmpDir],
      by simp [bind_eval, extract_from_archive, fsAct, hfs], by simp⟩
  | none =>
    cases hsh : env.sizeHash (env.tmpDir ++ [entry]) header alg with
    | error e =>
      exact ⟨[.extract archivePath entry env.tmpDir],
        by simp [bind_eval, extract_from_archive, fsAct, get_size_and_hash,
          hfs, hsh, pure_eval], by simp⟩
    | ok sh =>
      cases hrm : env.fsOk (.removeFile (env.tmpDir ++ [entry])) with
      | some e =>
        exact ⟨[.extract archivePath entry env.tmpDir,
            .removeFile (env.tmpDir ++ [entry])],
          by simp [bind_eval, extract_from_archive, fsAct, get_size_and_hash,
            remove_file, hfs, hsh, hrm, pure_eval], by simp⟩
      | none =>
        exact ⟨[.extract archivePath entry env.tmpDir,
            .removeFile (env.tmpDir ++ [entry])],
          by simp [bind_eval, extract_from_archive, fsAct, get_size_and_hash,
            remove_file, hfs, hsh, hrm, pure_eval], by simp⟩

/-- **C7**: in both import and check, an archive entry is materialized to
scratch and re-hashed exactly when the cheap container-listing digest is
unusable — the listed crc is empty, the system has a header, or (in
the import flow, which alone takes an algorithm) the selected algorithm is
not CRC; otherwise the listing's (size, crc) is used directly, with no
filesystem action at all. The check flow hashes with CRC, so its condition
is the import condition at `alg = crc`. -/
theorem c7_cheap_digest (env : Env) (header : Option Header)
    (alg : HashAlgorithm) (archivePath : FilePath') (info : ArchiveInfo)
    (st : St) :
    (∃ Δ, ((entry_size_hash env header alg archivePath info st).2).fs
        = st.fs ++ Δ ∧
      (FsOp.extract archivePath info.path env.tmpDir ∈ Δ ↔
        (info.crc = "" ∨ header.isSome = true ∨ alg ≠ HashAlgorithm.crc))) ∧
    ((info.crc ≠ "" ∧ header = none ∧ alg = HashAlgorithm.crc) →
      entry_size_hash env header alg archivePath info st
        = (.ok (info.size, info.crc), st)) ∧
    (∃ Δ, ((entry_size_crc env header archivePath info st).2).fs
        = st.fs ++ Δ ∧
      (FsOp.extract archivePath info.path env.tmpDir ∈ Δ ↔
        (info.crc = "" ∨ header.isSome = true))) ∧
    ((info.crc ≠ "" ∧ header = none) →
      entry_size_crc env header archivePath info st
        = (.ok (info.size, info.crc), st)) := by
  refine ⟨?_, ?_, ?_, ?_⟩
  · by_cases hc : (header.isSome || info.crc == "" || alg != HashAlgorithm.crc) = true
    · obtain ⟨Δ, hfs, hmem⟩ :=
        entry_extract_branch env header alg archivePath info.path st
      refine ⟨Δ, ?_, ?_⟩
      · rw [entry_size_hash, if_pos hc]
        exact hfs
      · have hc' : header.isSome = true ∨ info.crc = "" ∨ alg ≠ HashAlgorithm.crc := by
          simp only [Bool.or_eq_true, beq_iff_eq, bne_iff_ne] at hc
          tauto
        constructor
        · intro _; tauto
        · intro _; exact hmem
    · have hc' : header = none ∧ info.crc ≠ "" ∧ alg = HashAlgorithm.crc := by
        simp only [Bool.or_eq_true, beq_iff_eq, bne_iff_ne, not_or, not_not,
          Option.not_isSome_iff_eq_none] at hc
        tauto
      refine ⟨[], ?_, ?_⟩
      · rw [entry_size_hash, if_neg hc]
        simp [pure_eval]
      · simp only [List.not_mem_nil, false_iff, not_or]
        refine ⟨hc'.2.1, ?_, by simp [hc'.2.2]⟩
        simp [hc'.1]
  · rintro ⟨h1, h2, h3⟩
    subst h2; subst h3
    rw [entry_size_hash, if_neg (by simp [h1])]
    rfl
  · by_cases hc : (header.isSome || info.crc == "") = true
    · obtain ⟨Δ, hfs, hmem⟩ :=
        entry_extract_branch env header HashAlgorithm.crc archivePath info.path st
      refine ⟨Δ, ?_, ?_⟩
      · rw [entry_size_crc, if_pos hc]
        exact hfs
      · have hc' : header.isSome = true ∨ info.crc = "" := by
          simp only [Bool.or_eq_true, beq_iff_eq] at hc
          tauto
        constructor
        · intro _; tauto
        · intro _; exact hmem
    · have hc' : header = none ∧ info.crc ≠ "" := by
        simp only [Bool.or_eq_true, beq_iff_eq, not_or,
          Option.not_isSome_iff_eq_none] at hc
        tauto
      refine ⟨[], ?_, ?_⟩
      · rw [entry_size_crc, if_neg hc]
        simp [pure_eval]
      · simp only [List.not_mem_nil, false_iff, not_or]
        exact ⟨hc'.2, by simp [hc'.1]⟩
  · rintro ⟨h1, h2⟩
    subst h2
    rw [entry_size_crc, if_neg (by simp [h1])]
    rfl

/-- Concrete instance of C7: a usable listing crc is taken as-is in both
flows. -/
theorem c7_cheap_digest_witness :
    entry_size_hash envBase none .crc (["inbox", "a.7z"]) entU ⟨catA, [], []⟩
      = (.ok (7, "12ab34cd"), ⟨catA, [], []⟩) ∧
    entry_size_crc envBase none (["inbox", "a.7z"]) entU ⟨catA, [], []⟩
      = (.ok (7, "12ab34cd"), ⟨catA, [], []⟩) :=
  ⟨(c7_cheap_digest envBase none .crc (["inbox", "a.7z"]) entU
      ⟨catA, [], []⟩).2.1 ⟨by decide, rfl, rfl⟩,
   (c7_cheap_digest envBase none .crc (["inbox", "a.7z"]) entU
      ⟨catA, [], []⟩).2.2.2 ⟨by decide, rfl⟩⟩

/-! ## C9: the check flow's name lookup panics instead of invalidating -/

/-- `takeByName` returns the first pool rom of the given name; the remainder
is a subcollection of the pool. -/
theorem takeByName_some {name : String} {pool pool' : List Rom} {rom : Rom}
    (h : takeByName name pool = some (rom, pool')) :
    rom ∈ pool ∧ rom.name = name ∧ ∀ x ∈ pool', x ∈ pool := by
  induction pool generalizing pool' with
  | nil => simp [takeByName] at h
  | cons r rs ih =>
    rw [takeByName] at h
    by_cases hr : (r.name == name) = true
    · rw [if_pos hr] at h
      simp only [Option.some.injEq, Prod.mk.injEq] at h
      obtain ⟨h1, h2⟩ := h
      subst h1; subst h2
      exact ⟨List.mem_cons_self r rs, beq_iff_eq.mp hr,
        fun x hx => List.mem_cons_of_mem r hx⟩
    · rw [if_neg hr] at h
      cases htk : takeByName name rs with
      | none => rw [htk] at h; simp at h
      | some p =>
        obtain ⟨x, rest⟩ := p
        rw [htk] at h
        simp only [Option.some.injEq, Prod.mk.injEq] at h
        obtain ⟨h1, h2⟩ := h
        subst h1; subst h2
        obtain ⟨hx, hn, hsub⟩ := ih htk
        refine ⟨List.mem_cons_of_mem r hx, hn, fun y hy => ?_⟩
        rcases List.mem_cons.mp hy with hy | hy
        · exact hy ▸ List.mem_cons_self r rs
        · exact List.mem_cons_of_mem r (hsub y hy)

/-- The entry loop of `check_archive` panics whenever it reaches an entry
whose path is not the name of any pool rom; when every name-matched rom also
content-matches (only names are off), the loop can never return Invalid
first, so the panic is certain. -/
theorem check_archive_entries_panics (env : Env) (archivePath : FilePath') :
    ∀ (infos : List ArchiveInfo) (pool : List Rom) (st : St),
    (∀ info ∈ infos, info.crc ≠ "") →
    (∀ info ∈ infos, ∀ r ∈ pool, r.name = info.path →
      ((info.size : Int) = r.size ∧ r.crc = some info.crc)) →
    (∃ info ∈ infos, ∀ r ∈ pool, r.name ≠ info.path) →
    (check_archive_entries env none archivePath infos pool st).1
      = .error .panicked := by
  intro infos
  induction infos with
  | nil => intro pool st _ _ hbad; simp at hbad
  | cons info rest ih =>
    intro pool st hcrc hmatch hbad
    have hcrc0 : info.crc ≠ "" := hcrc info (List.mem_cons_self info rest)
    have hstep : entry_size_crc env none archivePath info st
        = (.ok (info.size, info.crc), st) := by
      rw [entry_size_crc, if_neg (by simp [hcrc0])]
      rfl
    rw [check_archive_entries, bind_ok hstep]
    cases htk : takeByName info.path pool with
    | none => simp [htk]
    | some p =>
      obtain ⟨rom, pool'⟩ := p
      obtain ⟨hmem, hname, hsub⟩ := takeByName_some htk
      obtain ⟨hsz, hcrceq⟩ :=
        hmatch info (List.mem_cons_self info rest) rom hmem hname
      simp only [htk, ← hsz, hcrceq, bne_self_eq_false, Bool.or_self,
        Bool.false_eq_true, if_false]
      refine ih pool' st (fun i hi => hcrc i (List.mem_cons_of_mem info hi))
        (fun i hi r hr hn =>
          hmatch i (List.mem_cons_of_mem info hi) r (hsub r hr) hn) ?_
      obtain ⟨i₀, hi₀, hprop⟩ := hbad
      rcases List.mem_cons.mp hi₀ with hi₀ | hi₀
      · exact absurd hname (hi₀ ▸ hprop rom hmem)
      · exact ⟨i₀, hi₀, fun r hr => hprop r (hsub r hr)⟩

/-- **C9**: when an archive's entry count equals the number of backing roms
but some entry's path is not the name of any backing rom — and the
name-matched entries are content-correct, so no earlier Invalid return
intervenes — `check_archive` panics (`position(..).unwrap()` of `None`)
instead of classifying the record Invalid. -/
theorem c9_check_archive_panic (env : Env) (archivePath : FilePath')
    (roms : List Rom) (st : St) (infos : List ArchiveInfo)
    (hparse : env.parseArchive archivePath = .ok infos)
    (hlen : infos.length = roms.length)
    (hcrc : ∀ info ∈ infos, info.crc ≠ "")
    (hmatch : ∀ info ∈ infos, ∀ r ∈ roms, r.name = info.path →
      ((info.size : Int) = r.size ∧ r.crc = some info.crc))
    (hbad : ∃ info ∈ infos, ∀ r ∈ roms, r.name ≠ info.path) :
    (check_archive env none archivePath roms st).1 = .error .panicked := by
  unfold check_archive
  rw [bind_ok (show parse_archive env archivePath st = (.ok infos, st) by
    rw [parse_archive_eval, hparse])]
  rw [if_neg (by simp [hlen])]
  exact check_archive_entries_panics env archivePath infos roms st hcrc hmatch hbad

/-- Concrete instance of C9: a one-entry archive whose entry carries exactly
`romA`'s size and digest under the wrong name `b.bin` panics the check
instead of going Invalid. -/
theorem c9_check_archive_panic_witness :
    (check_archive { envBase with parseArchive := fun _ => .ok [⟨"b.bin", 10, "cafecafe"⟩] }
        none (["roms", "S", "g.zip"]) [romA] ⟨catA, [], []⟩).1
      = .error .panicked :=
  c9_check_archive_panic _ (["roms", "S", "g.zip"]) [romA] ⟨catA, [], []⟩
    [⟨"b.bin", 10, "cafecafe"⟩] rfl (by decide) (by decide) (by decide) (by decide)

/-! ## State lemmas for the import flow -/

/-- Prompting leaves the state untouched. -/
theorem prompt_state (env : Env) (l : List (Rom × Game)) (st : St) :
    (prompt_for_rom_game env l st).2 = st := by
  unfold prompt_for_rom_game
  split
  · rfl
  · rfl
  · split <;> rfl

/-- `find_rom_by_hash` reads but never writes. -/
theorem find_rom_by_hash_state (env : Env) (size : Nat) (hash : String)
    (system : Sys) (alg : HashAlgorithm) (st : St) :
    (find_rom_by_hash env size hash system alg st).2 = st := by
  unfold find_rom_by_hash
  split
  · rfl
  · split <;> rfl
  · rename_i r₁ r₂ rest hq
    rcases hp : prompt_for_rom_game env
        ((r₁ :: r₂ :: rest).map fun r => (r, findGameById st.cat r.gameId)) st
      with ⟨res, stP⟩
    have hstP : stP = st := by
      have h := prompt_state env
        ((r₁ :: r₂ :: rest).map fun r => (r, findGameById st.cat r.gameId)) st
      rw [hp] at h
      exact h
    subst hstP
    rcases res with e | o
    · rfl
    · rcases o with _ | rom
      · rfl
      · split
        · rename_i rom' st' heq
          cases heq
          split <;> rfl
        · split <;> rfl

/-- The per-entry digest step of the import flow writes nothing to the
catalog; its filesystem effects are extraction and scratch removal only —
never a rename. -/
theorem entry_size_hash_state (env : Env) (header : Option Header)
    (alg : HashAlgorithm) (archivePath : FilePath') (info : ArchiveInfo)
    (st : St) :
    (entry_size_hash env header alg archivePath info st).2.cat = st.cat ∧
    (entry_size_hash env header alg archivePath info st).2.ops = st.ops ∧
    ∃ Δ, (entry_size_hash env header alg archivePath info st).2.fs
        = st.fs ++ Δ ∧
      ∀ src dst, FsOp.rename src dst ∉ Δ := by
  rw [entry_size_hash]
  split
  · cases hfs : env.fsOk (.extract archivePath info.path env.tmpDir) with
    | some e =>
      refine ⟨?_, ?_, [.extract archivePath info.path env.tmpDir], ?_, ?_⟩ <;>
        simp [bind_eval, extract_from_archive, fsAct, hfs]
    | none =>
      cases hsh : env.sizeHash (env.tmpDir ++ [info.path]) header alg with
      | error e =>
        refine ⟨?_, ?_, [.extract archivePath info.path env.tmpDir], ?_, ?_⟩ <;>
          simp [bind_eval, extract_from_archive, fsAct, get_size_and_hash,
            hfs, hsh, pure_eval]
      | ok sh =>
        cases hrm : env.fsOk (.removeFile (env.tmpDir ++ [info.path])) with
        | some e =>
          refine ⟨?_, ?_, [.extract archivePath info.path env.tmpDir,
              .removeFile (env.tmpDir ++ [info.path])], ?_, ?_⟩ <;>
            simp [bind_eval, extract_from_archive, fsAct, get_size_and_hash,
              remove_file, hfs, hsh, hrm, pure_eval]
        | none =>
          refine ⟨?_, ?_, [.extract archivePath info.path env.tmpDir,
              .removeFile (env.tmpDir ++ [info.path])], ?_, ?_⟩ <;>
            simp [bind_eval, extract_from_archive, fsAct, get_size_and_hash,
              remove_file, hfs, hsh, hrm, pure_eval]
  · exact ⟨rfl, rfl, [], by simp [pure_eval], by simp⟩

/-- `move_to_trash` with a working filesystem: the file is renamed into the
trash directory and exactly one romfile upsert at the trash path is issued. -/
theorem move_to_trash_ok (env : Env) (romDir : FilePath') (system : Sys)
    (p : FilePath') (st : St)
    (hfs : env.fsOk
      (.rename p (trashDirectory romDir system ++ [pathFileName p])) = none) :
    ∃ op, move_to_trash env romDir system p st
        = (.ok (), dbWrite op
            { st with fs := st.fs ++
                [.rename p (trashDirectory romDir system ++ [pathFileName p])] }) ∧
      dbOpPath op
        = some (trashDirectory romDir system ++ [pathFileName p]) := by
  unfold move_to_trash rename_file
  rw [bind_eval, fsAct_eval, hfs]
  cases hfind : findRomfileByPath st.cat
      (trashDirectory romDir system ++ [pathFileName p]) with
  | some rf =>
    exact ⟨.updateRomfile rf.id (trashDirectory romDir system ++ [pathFileName p])
        (env.fileLen (trashDirectory romDir system ++ [pathFileName p])),
      by simp [hfind], rfl⟩
  | none =>
    exact ⟨.createRomfile (trashDirectory romDir system ++ [pathFileName p])
        (env.fileLen (trashDirectory romDir system ++ [pathFileName p])),
      by simp [hfind], rfl⟩

/-- The resolution pass grows the match list by at most one pair per entry,
and — when the container is not single-entry, or every entry matched — it
writes nothing to the catalog and its filesystem effects contain no rename:
the container is neither quarantined nor moved during resolution. -/
theorem resolveEntries_effects (env : Env) (romDir : FilePath') (system : Sys)
    (header : Option Header) (alg : HashAlgorithm) (archivePath : FilePath')
    (total : Nat) :
    ∀ (infos : List ArchiveInfo) (pairs₀ : List (Rom × ArchiveInfo))
      (gids₀ : List Nat) (st st' : St) (pairsOut : List (Rom × ArchiveInfo))
      (gidsOut : List Nat),
    resolveEntries env romDir system header alg archivePath total infos
        pairs₀ gids₀ st = (.ok (pairsOut, gidsOut), st') →
    pairsOut.length ≤ pairs₀.length + infos.length ∧
    ((total ≠ 1 ∨ pairsOut.length = pairs₀.length + infos.length) →
      st'.cat = st.cat ∧ st'.ops = st.ops ∧
      ∃ Δ, st'.fs = st.fs ++ Δ ∧ ∀ src dst, FsOp.rename src dst ∉ Δ) := by
  intro infos
  induction infos with
  | nil =>
    intro pairs₀ gids₀ st st' pairsOut gidsOut hres
    rw [resolveEntries, pure_eval] at hres
    simp only [Prod.mk.injEq, Except.ok.injEq] at hres
    obtain ⟨⟨h1, h2⟩, h3⟩ := hres
    subst h1; subst h3
    exact ⟨by simp, fun _ => ⟨rfl, rfl, [], by simp, by simp⟩⟩
  | cons info rest ih =>
    intro pairs₀ gids₀ st st' pairsOut gidsOut hres
    rw [resolveEntries] at hres
    rcases hesh : entry_size_hash env header alg archivePath info st with ⟨res₁, stA⟩
    have hstA := entry_size_hash_state env header alg archivePath info st
    rw [hesh] at hstA
    have hc₁ : stA.cat = st.cat := hstA.1
    have ho₁ : stA.ops = st.ops := hstA.2.1
    obtain ⟨Δ₁, hf₁', hn₁⟩ := hstA.2.2
    have hf₁ : stA.fs = st.fs ++ Δ₁ := hf₁'
    cases res₁ with
    | error e => rw [bind_error hesh] at hres; simp at hres
    | ok sh =>
      rw [bind_ok hesh] at hres
      rcases hfind : find_rom_by_hash env sh.1 sh.2 system alg stA with ⟨res₂, stB⟩
      have hstB : stB = stA := by
        have h := find_rom_by_hash_state env sh.1 sh.2 system alg stA
        rw [hfind] at h
        exact h
      rw [hstB] at hfind
      cases res₂ with
      | error e => rw [bind_error hfind] at hres; simp at hres
      | ok rom? =>
        rw [bind_ok hfind] at hres
        cases rom? with
        | some rom =>
          obtain ⟨hbound, heff⟩ := ih (pairs₀ ++ [(rom, info)])
            (insertGid gids₀ rom.gameId) stA st' pairsOut gidsOut hres
          constructor
          · simp only [List.length_append, List.length_singleton] at hbound
            simp only [List.length_cons]
            omega
          · intro hside
            have hside' : total ≠ 1 ∨
                pairsOut.length = (pairs₀ ++ [(rom, info)]).length + rest.length := by
              rcases hside with h | h
              · exact Or.inl h
              · refine Or.inr ?_
                simp only [List.length_append, List.length_singleton]
                simp only [List.length_cons] at h
                omega
            obtain ⟨hc₂, ho₂, Δ₂, hf₂, hn₂⟩ := heff hside'
            refine ⟨hc₂.trans hc₁, ho₂.trans ho₁, Δ₁ ++ Δ₂, ?_, ?_⟩
            · rw [hf₂, hf₁, List.append_assoc]
            · intro src dst hmem
              rcases List.mem_append.mp hmem with h | h
              · exact hn₁ src dst h
              · exact hn₂ src dst h
        | none =>
          by_cases htot : total = 1
          · subst htot
            simp only [beq_self_eq_true, if_true] at hres
            rcases hmtt : move_to_trash env romDir system archivePath stA
              with ⟨res₃, st₃⟩
            cases res₃ with
            | error e => rw [bind_error hmtt] at hres; simp at hres
            | ok u =>
              rw [bind_ok hmtt] at hres
              obtain ⟨hbound, _⟩ := ih pairs₀ gids₀ st₃ st' pairsOut gidsOut hres
              constructor
              · simp only [List.length_cons]
                omega
              · intro hside
                rcases hside with h | h
                · exact absurd rfl h
                · simp only [List.length_cons] at h
                  omega
          · have hbeq : (total == 1) = false := by simp [htot]
            simp only [hbeq, Bool.false_eq_true, if_false] at hres
            rw [bind_ok (pure_eval _ stA)] at hres
            obtain ⟨hbound, heff⟩ := ih pairs₀ gids₀ stA st' pairsOut gidsOut hres
            constructor
            · simp only [List.length_cons]
              omega
            · intro _
              obtain ⟨hc₂, ho₂, Δ₂, hf₂, hn₂⟩ := heff (Or.inl htot)
              refine ⟨hc₂.trans hc₁, ho₂.trans ho₁, Δ₁ ++ Δ₂, ?_, ?_⟩
              · rw [hf₂, hf₁, List.append_assoc]
              · intro src dst hmem
                rcases List.mem_append.mp hmem with h | h
                · exact hn₁ src dst h
                · exact hn₂ src dst h

/-- The per-entry destination depends on the catalog only through the games
table. -/
theorem placeDest_congr {c c' : Catalog} (h : c.games = c'.games)
    (sysDir : FilePath') (system : Sys) (ext : String) (rom : Rom) :
    placeDest c sysDir system ext rom = placeDest c' sysDir system ext rom := by
  unfold placeDest findGameById
  rw [h]

/-- Binding a list of roms to one romfile row rewrites exactly those rom
rows (by id) and touches nothing else. -/
theorem bind_roms_fold (rfId : Nat) (roms : List Rom) :
    ∀ st : St,
    ((roms.foldl (fun s rom => dbWrite (.updateRomRomfile rom.id (some rfId)) s)
        st).cat.roms
      = st.cat.roms.map fun r =>
          if (roms.map (·.id)).contains r.id then { r with romfileId := some rfId }
          else r) ∧
    (roms.foldl (fun s rom => dbWrite (.updateRomRomfile rom.id (some rfId)) s)
        st).cat.romfiles = st.cat.romfiles ∧
    (roms.foldl (fun s rom => dbWrite (.updateRomRomfile rom.id (some rfId)) s)
        st).cat.games = st.cat.games ∧
    (roms.foldl (fun s rom => dbWrite (.updateRomRomfile rom.id (some rfId)) s)
        st).cat.nextRomfileId = st.cat.nextRomfileId ∧
    (roms.foldl (fun s rom => dbWrite (.updateRomRomfile rom.id (some rfId)) s)
        st).fs = st.fs := by
  induction roms with
  | nil =>
    intro st
    simp
  | cons b bs ih =>
    intro st
    rw [List.foldl_cons]
    obtain ⟨h1, h2, h3, h4, h5⟩ := ih (dbWrite (.updateRomRomfile b.id (some rfId)) st)
    refine ⟨?_, ?_, ?_, ?_, ?_⟩
    · rw [h1]
      show (st.cat.roms.map fun r =>
          if r.id == b.id then { r with romfileId := some rfId } else r).map _ = _
      rw [List.map_map]
      refine List.map_congr_left fun r _ => ?_
      simp only [Function.comp_apply, List.map_cons, List.contains_cons]
      by_cases hb : (r.id == b.id) = true
      · simp only [hb, Bool.true_or, if_true]
        split <;> rfl
      · simp only [hb, Bool.false_or, Bool.false_eq_true, if_false]
    · exact h2
    · exact h3
    · exact h4
    · exact h5

/-- `create_or_update_romfile` succeeds, touches no file, preserves the
games table, and every romfile row it leaves behind either predates the call
or sits at the given path. -/
theorem create_or_update_props (env : Env) (path : FilePath') (roms : List Rom)
    (st : St) :
    (create_or_update_romfile env path roms st).1 = .ok () ∧
    (create_or_update_romfile env path roms st).2.fs = st.fs ∧
    (create_or_update_romfile env path roms st).2.cat.games = st.cat.games ∧
    ∀ rf ∈ (create_or_update_romfile env path roms st).2.cat.romfiles,
      rf ∈ st.cat.romfiles ∨ rf.path = path := by
  unfold create_or_update_romfile
  cases hfind : findRomfileByPath st.cat path with
  | some rf₀ =>
    have hpath : rf₀.path = path := by
      have := List.find?_some hfind
      exact beq_iff_eq.mp this
    obtain ⟨h1, h2, h3, h4, h5⟩ :=
      bind_roms_fold rf₀.id roms (dbWrite (.updateRomfile rf₀.id rf₀.path (env.fileLen path)) st)
    refine ⟨rfl, ?_, ?_, ?_⟩
    · rw [h5]
      rfl
    · rw [h3]
      rfl
    · intro rf hrf
      rw [h2] at hrf
      have hrf' : rf ∈ st.cat.romfiles.map fun x =>
          if x.id == rf₀.id then { x with path := rf₀.path, size := env.fileLen path }
          else x := hrf
      obtain ⟨x, hx, hxeq⟩ := List.mem_map.mp hrf'
      by_cases hid : (x.id == rf₀.id) = true
      · right
        rw [← hxeq]
        simp [hid, hpath]
      · left
        rw [← hxeq]
        simp [hid, hx]
  | none =>
    obtain ⟨h1, h2, h3, h4, h5⟩ :=
      bind_roms_fold st.cat.nextRomfileId roms
        (dbWrite (.createRomfile path (env.fileLen path)) st)
    refine ⟨rfl, ?_, ?_, ?_⟩
    · rw [h5]
      rfl
    · rw [h3]
      rfl
    · intro rf hrf
      rw [h2] at hrf
      have hrf' : rf ∈ st.cat.romfiles ++ [⟨st.cat.nextRomfileId, path, env.fileLen path⟩] := hrf
      rcases List.mem_append.mp hrf' with h | h
      · exact Or.inl h
      · right
        rw [List.mem_singleton.mp h]

/-- The exact effect of `create_or_update_romfile` at a fresh path: exactly
one new romfile row is appended, and every given rom (and nothing else) is
bound to it. -/
theorem create_or_update_fresh (env : Env) (path : FilePath') (roms : List Rom)
    (st : St) (hfind : findRomfileByPath st.cat path = none) :
    (create_or_update_romfile env path roms st).1 = .ok () ∧
    (create_or_update_romfile env path roms st).2.cat.romfiles
      = st.cat.romfiles ++ [⟨st.cat.nextRomfileId, path, env.fileLen path⟩] ∧
    (create_or_update_romfile env path roms st).2.cat.roms
      = st.cat.roms.map (fun r =>
          if (roms.map (·.id)).contains r.id then
            { r with romfileId := some st.cat.nextRomfileId }
          else r) ∧
    (create_or_update_romfile env path roms st).2.fs = st.fs := by
  unfold create_or_update_romfile
  rw [hfind]
  obtain ⟨h1, h2, h3, h4, h5⟩ :=
    bind_roms_fold st.cat.nextRomfileId roms
      (dbWrite (.createRomfile path (env.fileLen path)) st)
  exact ⟨rfl, by rw [h2]; rfl, by rw [h1]; rfl, by rw [h5]; rfl⟩

/-- With a working filesystem, the repack renaming pass renames exactly the
entries whose names differ from their rom's catalog name, in order, and
touches nothing else. -/
theorem rename_mismatched_ok (env : Env) (archivePath : FilePath')
    (hfs : ∀ op, env.fsOk op = none) :
    ∀ (pairs : List (Rom × ArchiveInfo)) (st : St),
    rename_mismatched env archivePath pairs st
      = (.ok (), { st with fs := st.fs ++ (pairs.filterMap fun pr =>
          if pr.2.path != pr.1.name then
            some (.renameInArchive archivePath pr.2.path pr.1.name)
          else none) }) := by
  intro pairs
  induction pairs with
  | nil =>
    intro st
    rw [rename_mismatched, pure_eval]
    simp
  | cons pr rest ih =>
    intro st
    obtain ⟨rom, info⟩ := pr
    rw [rename_mismatched]
    by_cases hne : (info.path != rom.name) = true
    · rw [if_pos hne]
      rw [bind_ok (show rename_in_archive env archivePath info.path rom.name st
          = (.ok (), { st with fs := st.fs ++
              [.renameInArchive archivePath info.path rom.name] }) by
        simp [rename_in_archive, fsAct_eval, hfs])]
      have hne' : info.path ≠ rom.name := bne_iff_ne.mp hne
      exact (ih _).trans (by simp [List.filterMap_cons, hne', List.append_assoc])
    · rw [if_neg hne]
      rw [bind_ok (pure_eval _ st)]
      have hne' : info.path = rom.name := by
        simpa using hne
      exact (ih _).trans (by simp [List.filterMap_cons, hne'])

/-- With a working filesystem, the non-repack tail of `import_archive`
extracts and copies each matched entry to its per-entry destination — it
renames nothing, preserves the games table, and every romfile row it leaves
behind either predates the call or sits at one of those destinations. -/
theorem per_entry_place_effects (env : Env) (sysDir : FilePath') (system : Sys)
    (ext : String) (archivePath : FilePath')
    (hfs : ∀ op, env.fsOk op = none) :
    ∀ (pairs : List (Rom × ArchiveInfo)) (st : St),
    (per_entry_place env sysDir system ext archivePath pairs st).1 = .ok () ∧
    (per_entry_place env sysDir system ext archivePath pairs st).2.fs
      = st.fs ++ pairs.flatMap (fun pr =>
          [.extract archivePath pr.2.path env.tmpDir,
           .copy (env.tmpDir ++ [pr.2.path])
             (placeDest st.cat sysDir system ext pr.1)]) ∧
    (per_entry_place env sysDir system ext archivePath pairs st).2.cat.games
      = st.cat.games ∧
    ∀ rf ∈ (per_entry_place env sysDir system ext archivePath pairs st).2.cat.romfiles,
      rf ∈ st.cat.romfiles ∨
        rf.path ∈ pairs.map fun pr => placeDest st.cat sysDir system ext pr.1 := by
  intro pairs
  induction pairs with
  | nil =>
    intro st
    rw [per_entry_place, pure_eval]
    exact ⟨rfl, by simp, rfl, fun rf hrf => Or.inl hrf⟩
  | cons pr rest ih =>
    intro st
    obtain ⟨rom, info⟩ := pr
    rw [per_entry_place]
    rw [bind_ok (show extract_from_archive env archivePath info.path env.tmpDir st
        = (.ok (env.tmpDir ++ [info.path]), { st with fs := st.fs ++
            [.extract archivePath info.path env.tmpDir] }) by
      simp [extract_from_archive, bind_eval, fsAct_eval, hfs, pure_eval])]
    rw [bind_ok (show getCat { st with fs := st.fs ++
        [.extract archivePath info.path env.tmpDir] }
      = (.ok st.cat, { st with fs := st.fs ++
          [.extract archivePath info.path env.tmpDir] }) from rfl)]
    rw [bind_ok (show copy_file env (env.tmpDir ++ [info.path])
        (placeDest st.cat sysDir system ext rom)
        { st with fs := st.fs ++ [.extract archivePath info.path env.tmpDir] }
      = (.ok (), { st with fs := st.fs ++
          [.extract archivePath info.path env.tmpDir,
           .copy (env.tmpDir ++ [info.path])
             (placeDest st.cat sysDir system ext rom)] }) by
      simp [copy_file, fsAct_eval, hfs])]
    rcases hcu : create_or_update_romfile env
        (placeDest st.cat sysDir system ext rom) [rom]
        { st with fs := st.fs ++
          [.extract archivePath info.path env.tmpDir,
           .copy (env.tmpDir ++ [info.path])
             (placeDest st.cat sysDir system ext rom)] } with ⟨res₃, st₃⟩
    have hprops := create_or_update_props env
      (placeDest st.cat sysDir system ext rom) [rom]
      { st with fs := st.fs ++
        [.extract archivePath info.path env.tmpDir,
         .copy (env.tmpDir ++ [info.path])
           (placeDest st.cat sysDir system ext rom)] }
    rw [hcu] at hprops
    obtain ⟨hok₃, hfs₃, hg₃, hrf₃⟩ := hprops
    cases res₃ with
    | error e => simp at hok₃
    | ok u =>
      rw [bind_ok hcu]
      obtain ⟨ihok, ihfs, ihg, ihrf⟩ := ih st₃
      have hgst : st₃.cat.games = st.cat.games := hg₃
      have hfs₃' : st₃.fs = st.fs ++
          [.extract archivePath info.path env.tmpDir,
           .copy (env.tmpDir ++ [info.path])
             (placeDest st.cat sysDir system ext rom)] := hfs₃
      have hdc : ∀ r : Rom, placeDest st₃.cat sysDir system ext r
          = placeDest st.cat sysDir system ext r :=
        fun r => placeDest_congr hgst sysDir system ext r
      refine ⟨ihok, ?_, ihg.trans hgst, ?_⟩
      · rw [ihfs, hfs₃']
        simp only [List.flatMap_cons, hdc]
        simp [List.append_assoc]
      · intro rf hrf
        rcases ihrf rf hrf with h | h
        · rcases hrf₃ rf h with h' | h'
          · exact Or.inl h'
          · right
            rw [List.map_cons, h']
            exact List.mem_cons_self _ _
        · right
          rw [List.map_cons]
          refine List.mem_cons_of_mem _ ?_
          obtain ⟨pr', hpr', hpr'eq⟩ := List.mem_map.mp h
          exact List.mem_map.mpr ⟨pr', hpr', by rw [← hpr'eq, hdc]⟩

/-- `import_archive` is the resolution pass followed by the placement
decision on the resulting state. -/
theorem import_archive_steps (env : Env) (romDir sysDir : FilePath')
    (system : Sys) (header : Option Header) (archivePath : FilePath')
    (ext : String) (alg : HashAlgorithm) (st₀ st' : St)
    (infos : List ArchiveInfo) (pairs : List (Rom × ArchiveInfo))
    (gids : List Nat)
    (hparse : env.parseArchive archivePath = .ok infos)
    (hres : resolveEntries env romDir system header alg archivePath
        infos.length infos [] [] st₀ = (.ok (pairs, gids), st')) :
    import_archive env romDir sysDir system header archivePath ext alg st₀
      = archive_place env sysDir system ext archivePath infos.length pairs gids
          st' := by
  unfold import_archive
  rw [bind_ok (show parse_archive env archivePath st₀ = (.ok infos, st₀) by
    rw [parse_archive_eval, hparse])]
  rw [bind_ok hres]

/-- When the whole-game repack test fails, the placement decision is the
per-entry path. -/
theorem archive_place_skip (env : Env) (sysDir : FilePath') (system : Sys)
    (ext : String) (archivePath : FilePath') (infosLen : Nat)
    (pairs : List (Rom × ArchiveInfo)) (gids : List Nat) (st : St)
    (hcond : repack_condition st.cat infosLen pairs gids = false) :
    archive_place env sysDir system ext archivePath infosLen pairs gids st
      = per_entry_place env sysDir system ext archivePath pairs st := by
  unfold archive_place
  by_cases h1 : (pairs.length == infosLen && gids.length == 1) = true
  · rw [if_pos h1]
    have h2 : ((((findRomsByGameIdNoParents st.cat (gids.getLastD 0)).map
        (·.id)).filter fun i => !((pairs.map fun p => p.1.id).contains i)).isEmpty)
        = false := by
      unfold repack_condition at hcond
      simpa [h1] using hcond
    rw [if_neg (by simp only [h2]; exact Bool.false_ne_true)]
  · rw [if_neg h1]

/-- When the whole-game repack test passes, the placement decision is the
repack path. -/
theorem archive_place_repack (env : Env) (sysDir : FilePath') (system : Sys)
    (ext : String) (archivePath : FilePath') (infosLen : Nat)
    (pairs : List (Rom × ArchiveInfo)) (gids : List Nat) (st : St)
    (h1 : (pairs.length == infosLen && gids.length == 1) = true)
    (h2 : ((((findRomsByGameIdNoParents st.cat (gids.getLastD 0)).map
        (·.id)).filter fun i => !((pairs.map fun p => p.1.id).contains i)).isEmpty)
        = true) :
    archive_place env sysDir system ext archivePath infosLen pairs gids st
      = ((do
        rename_mismatched env archivePath pairs
        rename_file env archivePath
          (repack_path sysDir system ext
            (findGameById st.cat (gids.getLastD 0)).name pairs)
        create_or_update_romfile env
          (repack_path sysDir system ext
            (findGameById st.cat (gids.getLastD 0)).name pairs)
          (pairs.map (·.1)) : M Unit)) st := by
  unfold archive_place
  rw [if_pos h1, if_pos h2]

/-! ## C10: per-entry placement copies; the container stays put -/

/-- **C10**: in the non-repack case of `import_archive` (with no single-entry
quarantine in play), each matched entry is extracted to scratch and copied
to its canonical destination — never moved —, no rename of the container is
ever issued, and no romfile row ends up at the container's own path: rows at
that path all predate the call. -/
theorem c10_per_entry_placement (env : Env) (romDir sysDir : FilePath')
    (system : Sys) (header : Option Header) (archivePath : FilePath')
    (ext : String) (alg : HashAlgorithm) (st₀ st' : St)
    (infos : List ArchiveInfo) (pairs : List (Rom × ArchiveInfo))
    (gids : List Nat)
    (hparse : env.parseArchive archivePath = .ok infos)
    (hres : resolveEntries env romDir system header alg archivePath
        infos.length infos [] [] st₀ = (.ok (pairs, gids), st'))
    (hnorepack : repack_condition st'.cat infos.length pairs gids = false)
    (hfs : ∀ op, env.fsOk op = none)
    (hside : infos.length ≠ 1 ∨ pairs.length = infos.length)
    (harch : archivePath ∉ pairs.map fun pr => placeDest st'.cat sysDir system ext pr.1)
    (harchfs : ∀ dst, FsOp.rename archivePath dst ∉ st₀.fs) :
    (import_archive env romDir sysDir system header archivePath ext alg st₀).1
      = .ok () ∧
    (import_archive env romDir sysDir system header archivePath ext alg st₀).2.fs
      = st'.fs ++ pairs.flatMap (fun pr =>
          [.extract archivePath pr.2.path env.tmpDir,
           .copy (env.tmpDir ++ [pr.2.path])
             (placeDest st'.cat sysDir system ext pr.1)]) ∧
    (∀ dst, FsOp.rename archivePath dst
      ∉ (import_archive env romDir sysDir system header archivePath ext alg st₀).2.fs) ∧
    ∀ rf ∈ (import_archive env romDir sysDir system header archivePath ext alg
        st₀).2.cat.romfiles,
      rf.path = archivePath → rf ∈ st₀.cat.romfiles := by
  have heq : import_archive env romDir sysDir system header archivePath ext alg st₀
      = per_entry_place env sysDir system ext archivePath pairs st' :=
    (import_archive_steps env romDir sysDir system header archivePath ext alg
        st₀ st' infos pairs gids hparse hres).trans
      (archive_place_skip env sysDir system ext archivePath infos.length pairs
        gids st' hnorepack)
  obtain ⟨hok, hfs2, hg2, hrf2⟩ :=
    per_entry_place_effects env sysDir system ext archivePath hfs pairs st'
  obtain ⟨hb, heff⟩ := resolveEntries_effects env romDir system header alg
    archivePath infos.length infos [] [] st₀ st' pairs gids hres
  obtain ⟨hc1, ho1, Δ₁, hf1, hwk⟩ := heff (by
    rcases hside with h | h
    · exact Or.inl h
    · exact Or.inr (by simpa using h))
  rw [heq]
  refine ⟨hok, hfs2, ?_, ?_⟩
  · intro dst hmem
    rw [hfs2, hf1] at hmem
    rcases List.mem_append.mp hmem with hmem | hmem
    · rcases List.mem_append.mp hmem with hmem | hmem
      · exact harchfs dst hmem
      · exact hwk archivePath dst hmem
    · obtain ⟨pr, _, hpr⟩ := List.mem_flatMap.mp hmem
      simp at hpr
  · intro rf hrf hpath
    rcases hrf2 rf hrf with h | h
    · rw [hc1] at h
      exact h
    · exact absurd (hpath ▸ h) harch

/-- Concrete instance of C10: a one-entry archive matching one rom of a
two-rom game is placed per-entry and the import succeeds. -/
theorem c10_per_entry_placement_witness :
    (import_archive envB ["roms"] (["roms", "S"]) sysA none (["inbox", "a.7z"])
        "7z" .crc ⟨catB, [], []⟩).1 = .ok () :=
  (c10_per_entry_placement envB ["roms"] (["roms", "S"]) sysA none
    (["inbox", "a.7z"]) "7z" .crc ⟨catB, [], []⟩ ⟨catB, [], []⟩ [entX]
    [(romA, entX)] [0] rfl (by decide) (by decide)
    (fun _ => rfl) (Or.inr (by decide)) (by decide)
    (fun _ h => absurd h (List.not_mem_nil _))).1

/-! ## C5: the no-match asymmetry -/

/-- **C5**: an unmatched entry quarantines the whole container exactly when
it is the container's sole entry. (a) A single-entry container whose entry
has no catalog match is renamed whole into the trash directory, with one
romfile upsert at the trash path. (b) A container with more than one entry
and at least one unmatched entry still places its matched entries, and no
rename of the container — in particular no quarantine — is ever issued. -/
theorem c5_no_match_asymmetry (env : Env) (romDir sysDir : FilePath')
    (system : Sys) (header : Option Header) (archivePath : FilePath')
    (ext : String) (alg : HashAlgorithm) (st₀ : St) :
    (∀ (e : ArchiveInfo) (sh : Nat × String) (st₁ : St),
      env.parseArchive archivePath = .ok [e] →
      entry_size_hash env header alg archivePath e st₀ = (.ok sh, st₁) →
      find_rom_by_hash env sh.1 sh.2 system alg st₁ = (.ok none, st₁) →
      env.fsOk (.rename archivePath
        (trashDirectory romDir system ++ [pathFileName archivePath])) = none →
      ∃ op, import_archive env romDir sysDir system header archivePath ext alg st₀
          = (.ok (), dbWrite op { st₁ with fs := st₁.fs ++
              [.rename archivePath
                (trashDirectory romDir system ++ [pathFileName archivePath])] }) ∧
        dbOpPath op
          = some (trashDirectory romDir system ++ [pathFileName archivePath])) ∧
    (∀ (infos : List ArchiveInfo) (pairs : List (Rom × ArchiveInfo))
        (gids : List Nat) (st' : St),
      env.parseArchive archivePath = .ok infos →
      resolveEntries env romDir system header alg archivePath infos.length infos
          [] [] st₀ = (.ok (pairs, gids), st') →
      1 < infos.length →
      pairs.length < infos.length →
      (∀ op, env.fsOk op = none) →
      (∀ dst, FsOp.rename archivePath dst ∉ st₀.fs) →
      (import_archive env romDir sysDir system header archivePath ext alg st₀).1
        = .ok () ∧
      (import_archive env romDir sysDir system header archivePath ext alg
          st₀).2.fs
        = st'.fs ++ pairs.flatMap (fun pr =>
            [.extract archivePath pr.2.path env.tmpDir,
             .copy (env.tmpDir ++ [pr.2.path])
               (placeDest st'.cat sysDir system ext pr.1)]) ∧
      ∀ dst, FsOp.rename archivePath dst
        ∉ (import_archive env romDir sysDir system header archivePath ext alg
            st₀).2.fs) := by
  constructor
  · intro e sh st₁ hparse hsh hfind hfs
    obtain ⟨op, hmtt, hop⟩ := move_to_trash_ok env romDir system archivePath st₁ hfs
    have hres : resolveEntries env romDir system header alg archivePath 1 [e]
        [] [] st₀
        = (.ok ([], []), dbWrite op { st₁ with fs := st₁.fs ++
            [.rename archivePath
              (trashDirectory romDir system ++ [pathFileName archivePath])] }) := by
      rw [resolveEntries]
      rw [bind_ok hsh, bind_ok hfind]
      simp only [beq_self_eq_true, if_true]
      rw [bind_ok hmtt]
      rw [resolveEntries, pure_eval]
    have heq := (import_archive_steps env romDir sysDir system header archivePath
        ext alg st₀ _ [e] [] [] hparse hres).trans
      (archive_place_skip env sysDir system ext archivePath 1 [] [] _
        (by simp [repack_condition]))
    refine ⟨op, heq.trans ?_, hop⟩
    rw [per_entry_place, pure_eval]
  · intro infos pairs gids st' hparse hres hmulti hpartial hfs harchfs
    have hnorepack : repack_condition st'.cat infos.length pairs gids = false := by
      have hne : (pairs.length == infos.length) = false := by
        simp [Nat.ne_of_lt hpartial]
      simp [repack_condition, hne]
    have heq : import_archive env romDir sysDir system header archivePath ext alg st₀
        = per_entry_place env sysDir system ext archivePath pairs st' :=
      (import_archive_steps env romDir sysDir system header archivePath ext alg
          st₀ st' infos pairs gids hparse hres).trans
        (archive_place_skip env sysDir system ext archivePath infos.length pairs
          gids st' hnorepack)
    obtain ⟨hok, hfs2, hg2, hrf2⟩ :=
      per_entry_place_effects env sysDir system ext archivePath hfs pairs st'
    obtain ⟨hb, heff⟩ := resolveEntries_effects env romDir system header alg
      archivePath infos.length infos [] [] st₀ st' pairs gids hres
    obtain ⟨hc1, ho1, Δ₁, hf1, hwk⟩ := heff (Or.inl (by omega))
    rw [heq]
    refine ⟨hok, hfs2, ?_⟩
    intro dst hmem
    rw [hfs2, hf1] at hmem
    rcases List.mem_append.mp hmem with hmem | hmem
    · rcases List.mem_append.mp hmem with hmem | hmem
      · exact harchfs dst hmem
      · exact hwk archivePath dst hmem
    · obtain ⟨pr, _, hpr⟩ := List.mem_flatMap.mp hmem
      simp at hpr

/-- Concrete instance of C5(a): a single-entry archive with no catalog match
is quarantined whole, with the romfile upsert at its trash path. -/
theorem c5_no_match_asymmetry_witness :
    ∃ op, import_archive envC ["roms"] (["roms", "S"]) sysA none
        (["inbox", "z.7z"]) "7z" .crc ⟨catA, [], []⟩
        = (.ok (), dbWrite op ⟨catA, [],
            [.rename (["inbox", "z.7z"]) (["roms", "S", "Trash", "z.7z"])]⟩) ∧
      dbOpPath op = some (["roms", "S", "Trash", "z.7z"]) :=
  (c5_no_match_asymmetry envC ["roms"] (["roms", "S"]) sysA none
      (["inbox", "z.7z"]) "7z" .crc ⟨catA, [], []⟩).1 entZ (99, "00000000")
    ⟨catA, [], []⟩ rfl (by decide) (by decide) rfl

/-! ## C1: whole-game repack in place -/

/-- **C1**: when every entry of a container matched, all matched roms belong
to one game, and that game's complete non-parent rom set is covered by the
matched set, `import_archive` repacks in place: every entry whose name
differs from its rom's catalog name is renamed inside the container, the
container file is renamed to one canonical path — the game-derived name for
a multi-entry container or a single rom with PS3/arcade placement, else the
single rom's name with the container extension —, exactly one new romfile
row is created there, and every matched rom (and nothing else) is bound to
that one row: not one row per entry. -/
theorem c1_whole_game_repack (env : Env) (romDir sysDir : FilePath')
    (system : Sys) (header : Option Header) (archivePath : FilePath')
    (ext : String) (alg : HashAlgorithm) (st₀ st' : St)
    (infos : List ArchiveInfo) (pairs : List (Rom × ArchiveInfo)) (gid : Nat)
    (hparse : env.parseArchive archivePath = .ok infos)
    (hres : resolveEntries env romDir system header alg archivePath
        infos.length infos [] [] st₀ = (.ok (pairs, [gid]), st'))
    (hall : pairs.length = infos.length)
    (hsub : (((findRomsByGameIdNoParents st'.cat gid).map (·.id)).filter
        fun i => !((pairs.map fun p => p.1.id).contains i)).isEmpty = true)
    (hfs : ∀ op, env.fsOk op = none)
    (hfresh : findRomfileByPath st'.cat
        (repack_path sysDir system ext (findGameById st'.cat gid).name pairs)
        = none) :
    (import_archive env romDir sysDir system header archivePath ext alg st₀).1
      = .ok () ∧
    (import_archive env romDir sysDir system header archivePath ext alg st₀).2.fs
      = st'.fs ++ (pairs.filterMap fun pr =>
          if pr.2.path != pr.1.name then
            some (.renameInArchive archivePath pr.2.path pr.1.name)
          else none)
        ++ [.rename archivePath
            (repack_path sysDir system ext (findGameById st'.cat gid).name pairs)] ∧
    (import_archive env romDir sysDir system header archivePath ext alg
        st₀).2.cat.romfiles
      = st'.cat.romfiles ++ [⟨st'.cat.nextRomfileId,
          repack_path sysDir system ext (findGameById st'.cat gid).name pairs,
          env.fileLen
            (repack_path sysDir system ext (findGameById st'.cat gid).name pairs)⟩] ∧
    (import_archive env romDir sysDir system header archivePath ext alg
        st₀).2.cat.roms
      = st'.cat.roms.map (fun r =>
          if ((pairs.map (·.1)).map (·.id)).contains r.id then
            { r with romfileId := some st'.cat.nextRomfileId }
          else r) ∧
    (∀ rom e, pairs = [(rom, e)] →
      (¬(system.arcade = true ∨
          PS3_EXTENSIONS.contains (strToLower ((extOf rom.name).getD "")) = true) →
        repack_path sysDir system ext (findGameById st'.cat gid).name pairs
          = setExtPath (sysDir ++ [rom.name]) ext) ∧
      ((system.arcade = true ∨
          PS3_EXTENSIONS.contains (strToLower ((extOf rom.name).getD "")) = true) →
        repack_path sysDir system ext (findGameById st'.cat gid).name pairs
          = sysDir ++ [(findGameById st'.cat gid).name ++ "." ++ ext])) ∧
    (2 ≤ pairs.length →
      repack_path sysDir system ext (findGameById st'.cat gid).name pairs
        = sysDir ++ [(findGameById st'.cat gid).name ++ "." ++ ext]) := by
  have h1 : (pairs.length == infos.length && ([gid] : List Nat).length == 1)
      = true := by
    simp [hall]
  have heq := (import_archive_steps env romDir sysDir system header archivePath
      ext alg st₀ st' infos pairs [gid] hparse hres).trans
    (archive_place_repack env sysDir system ext archivePath infos.length pairs
      [gid] st' h1 hsub)
  have hg : ([gid] : List Nat).getLastD 0 = gid := rfl
  rw [hg] at heq
  have hrm := rename_mismatched_ok env archivePath hfs pairs st'
  have hrun : import_archive env romDir sysDir system header archivePath ext
      alg st₀
      = create_or_update_romfile env
          (repack_path sysDir system ext (findGameById st'.cat gid).name pairs)
          (pairs.map (·.1))
          { st' with fs := (st'.fs ++ (pairs.filterMap fun pr =>
              if pr.2.path != pr.1.name then
                some (.renameInArchive archivePath pr.2.path pr.1.name)
              else none))
            ++ [.rename archivePath
              (repack_path sysDir system ext (findGameById st'.cat gid).name
                pairs)] } := by
    rw [heq]
    rw [bind_ok hrm]
    rw [bind_ok (show rename_file env archivePath
        (repack_path sysDir system ext (findGameById st'.cat gid).name pairs)
        { st' with fs := st'.fs ++ (pairs.filterMap fun pr =>
            if pr.2.path != pr.1.name then
              some (.renameInArchive archivePath pr.2.path pr.1.name)
            else none) }
      = (.ok (), { st' with fs := (st'.fs ++ (pairs.filterMap fun pr =>
            if pr.2.path != pr.1.name then
              some (.renameInArchive archivePath pr.2.path pr.1.name)
            else none))
          ++ [.rename archivePath
            (repack_path sysDir system ext (findGameById st'.cat gid).name
              pairs)] }) by
      simp [rename_file, fsAct_eval, hfs, List.append_assoc])]
  obtain ⟨hok₃, hrf₃, hroms₃, hfs₃⟩ := create_or_update_fresh env
    (repack_path sysDir system ext (findGameById st'.cat gid).name pairs)
    (pairs.map (·.1))
    { st' with fs := (st'.fs ++ (pairs.filterMap fun pr =>
        if pr.2.path != pr.1.name then
          some (.renameInArchive archivePath pr.2.path pr.1.name)
        else none))
      ++ [.rename archivePath
        (repack_path sysDir system ext (findGameById st'.cat gid).name pairs)] }
    hfresh
  refine ⟨by rw [hrun]; exact hok₃, by rw [hrun, hfs₃], by rw [hrun, hrf₃],
    by rw [hrun, hroms₃], ?_, ?_⟩
  · intro rom e hpe
    subst hpe
    constructor
    · intro hnot
      simp only [not_or] at hnot
      have hb : (system.arcade ||
          PS3_EXTENSIONS.contains (strToLower ((extOf rom.name).getD ""))) = false := by
        simp only [Bool.not_eq_true] at hnot
        rw [hnot.1, hnot.2]
        rfl
      simp only [repack_path]
      rw [if_neg (by rw [hb]; exact Bool.false_ne_true)]
    · intro hyes
      have hb : (system.arcade ||
          PS3_EXTENSIONS.contains (strToLower ((extOf rom.name).getD ""))) = true := by
        rcases hyes with h | h
        · rw [h, Bool.true_or]
        · rw [h, Bool.or_true]
      simp only [repack_path]
      rw [if_pos hb]
  · intro h2
    match pairs, h2 with
    | p₁ :: p₂ :: rest, _ =>
      rw [repack_path]
      intro rom snd h
      simp at h

/-- Concrete instance of C1: a single-entry archive carrying exactly the one
rom of a one-rom game is repacked whole and the import succeeds. -/
theorem c1_whole_game_repack_witness :
    (import_archive envB ["roms"] (["roms", "S"]) sysA none
        (["inbox", "a.7z"]) "7z" .crc ⟨catA, [], []⟩).1 = .ok () :=
  (c1_whole_game_repack envB ["roms"] (["roms", "S"]) sysA none
    (["inbox", "a.7z"]) "7z" .crc ⟨catA, [], []⟩ ⟨catA, [], []⟩ [entX]
    [(romA, entX)] 0 rfl (by decide) rfl (by decide) (fun _ => rfl)
    (by decide)).1

/-! ## C6: a single track mismatch quarantines the whole image -/

/-- A catalog write at a romfile path never changes rom rows, and every
romfile row it leaves behind either predates it or sits at that path. -/
theorem applyDbOp_path_effects (c : Catalog) (op : DbOp) (q : FilePath')
    (hop : dbOpPath op = some q) :
    (applyDbOp c op).roms = c.roms ∧
    ∀ rf ∈ (applyDbOp c op).romfiles, rf ∈ c.romfiles ∨ rf.path = q := by
  cases op with
  | createRomfile p s =>
    simp only [dbOpPath, Option.some.injEq] at hop
    subst hop
    refine ⟨rfl, fun rf hrf => ?_⟩
    rcases List.mem_append.mp hrf with h | h
    · exact Or.inl h
    · exact Or.inr (by rw [List.mem_singleton.mp h])
  | updateRomfile i p s =>
    simp only [dbOpPath, Option.some.injEq] at hop
    subst hop
    refine ⟨rfl, fun rf hrf => ?_⟩
    obtain ⟨x, hx, hxeq⟩ := List.mem_map.mp hrf
    by_cases hid : (x.id == i) = true
    · exact Or.inr (by rw [← hxeq]; simp [hid])
    · exact Or.inl (by rw [← hxeq]; simp [hid, hx])
  | updateRomfilePath i p =>
    simp only [dbOpPath, Option.some.injEq] at hop
    subst hop
    refine ⟨rfl, fun rf hrf => ?_⟩
    obtain ⟨x, hx, hxeq⟩ := List.mem_map.mp hrf
    by_cases hid : (x.id == i) = true
    · exact Or.inr (by rw [← hxeq]; simp [hid])
    · exact Or.inl (by rw [← hxeq]; simp [hid, hx])
  | updateRomRomfile ri rfi => simp [dbOpPath] at hop

/-- With a working filesystem, hashing the extracted tracks returns the
digests the environment assigns and removes each scratch file. -/
theorem hash_tracks_ok (env : Env) (header : Option Header)
    (alg : HashAlgorithm) (hfs : ∀ op, env.fsOk op = none) :
    ∀ (ps : List FilePath') (hs : List String) (st : St),
    List.Forall₂ (fun p h => ∃ sz, env.sizeHash p header alg = .ok (sz, h)) ps hs →
    hash_tracks env header alg ps st
      = (.ok hs, { st with fs := st.fs ++ ps.map (.removeFile ·) }) := by
  intro ps
  induction ps with
  | nil =>
    intro hs st hf
    cases hf
    rw [hash_tracks, pure_eval]
    simp
  | cons p ps' ih =>
    intro hs st hf
    cases hf with
    | cons hhead htail =>
      obtain ⟨sz, hsz⟩ := hhead
      rename_i h hs'
      rw [hash_tracks]
      rw [bind_ok (show get_size_and_hash env p header alg st = (.ok (sz, h), st) by
        rw [get_size_and_hash_eval, hsz])]
      rw [bind_ok (show remove_file env p st
          = (.ok (), { st with fs := st.fs ++ [.removeFile p] }) by
        simp [remove_file, fsAct_eval, hfs])]
      rw [bind_ok (ih hs' { st with fs := st.fs ++ [.removeFile p] } htail)]
      rw [pure_eval]
      simp [List.append_assoc]

/-- **C6**: in multiple-tracks mode, the tracks are decoded against the
(name, size) pairs of the cue's game's non-parent rom set minus the cue rom,
and when any single track digest disagrees with its rom's recorded crc the
entire image file is renamed into the trash directory: no rom row is bound,
the only romfile row touched is the trash-path upsert, and the cue file is
not moved by that mismatch. -/
theorem c6_multitrack_mismatch (env : Env) (romDir sysDir : FilePath')
    (system : Sys) (header : Option Header) (chdPath : FilePath')
    (alg : HashAlgorithm) (st₀ : St) (sh : Nat × String) (cueRom : Rom)
    (roms : List Rom) (hashes : List String)
    (hroms : roms = (findRomsByGameIdNoParents st₀.cat cueRom.gameId).filter
      fun r => r.id != cueRom.id)
    (hcue : env.isFile (setExtPath chdPath CUE_EXTENSION) = true)
    (hsh : env.sizeHash (setExtPath chdPath CUE_EXTENSION) header alg = .ok sh)
    (hfind : find_rom_by_hash env sh.1 sh.2 system alg st₀
      = (.ok (some cueRom), st₀))
    (hfs : ∀ op, env.fsOk op = none)
    (hht : List.Forall₂ (fun p h => ∃ sz, env.sizeHash p header alg = .ok (sz, h))
      ((roms.map fun r => (r.name, r.size.toNat)).map fun ns => env.tmpDir ++ [ns.1])
      hashes)
    (hmm : tracks_mismatch (roms.zip hashes) = .ok true) :
    (import_chd env romDir sysDir system header chdPath alg st₀).1 = .ok () ∧
    (import_chd env romDir sysDir system header chdPath alg st₀).2.fs
      = st₀.fs ++ [.chdExtract chdPath env.tmpDir
            (roms.map fun r => (r.name, r.size.toNat))]
        ++ ((roms.map fun r => (r.name, r.size.toNat)).map
            fun ns => FsOp.removeFile (env.tmpDir ++ [ns.1]))
        ++ [.rename chdPath (trashDirectory romDir system ++ [pathFileName chdPath])] ∧
    (import_chd env romDir sysDir system header chdPath alg st₀).2.cat.roms
      = st₀.cat.roms ∧
    (∀ rf ∈ (import_chd env romDir sysDir system header chdPath alg
        st₀).2.cat.romfiles,
      rf ∈ st₀.cat.romfiles ∨
        rf.path = trashDirectory romDir system ++ [pathFileName chdPath]) ∧
    ∀ dst, FsOp.rename (setExtPath chdPath CUE_EXTENSION) dst
        ∈ (import_chd env romDir sysDir system header chdPath alg st₀).2.fs →
      FsOp.rename (setExtPath chdPath CUE_EXTENSION) dst ∈ st₀.fs ∨
        setExtPath chdPath CUE_EXTENSION = chdPath := by
  have h1 : import_chd env romDir sysDir system header chdPath alg st₀
      = chd_multi_mode env romDir sysDir system header alg chdPath
          (setExtPath chdPath CUE_EXTENSION) (some cueRom) st₀ := by
    simp only [import_chd]
    rw [if_pos hcue]
    rw [bind_ok (show get_size_and_hash env (setExtPath chdPath CUE_EXTENSION)
        header alg st₀ = (.ok sh, st₀) by rw [get_size_and_hash_eval, hsh])]
    rw [bind_ok hfind]
  have h2 : chd_multi_mode env romDir sysDir system header alg chdPath
      (setExtPath chdPath CUE_EXTENSION) (some cueRom) st₀
      = chd_multi_finish env romDir sysDir system chdPath
          (setExtPath chdPath CUE_EXTENSION) cueRom roms hashes
          { st₀ with fs := (st₀.fs ++ [.chdExtract chdPath env.tmpDir
              (roms.map fun r => (r.name, r.size.toNat))])
            ++ ((roms.map fun r => (r.name, r.size.toNat)).map
                fun ns => FsOp.removeFile (env.tmpDir ++ [ns.1])) } := by
    rw [chd_multi_mode]
    rw [bind_ok (show getCat st₀ = (.ok st₀.cat, st₀) from rfl)]
    rw [← hroms]
    rw [bind_ok (show extract_chd_multi env chdPath env.tmpDir
        (roms.map fun r => (r.name, r.size.toNat)) st₀
        = (.ok ((roms.map fun r => (r.name, r.size.toNat)).map
            fun ns => env.tmpDir ++ [ns.1]),
          { st₀ with fs := st₀.fs ++ [.chdExtract chdPath env.tmpDir
              (roms.map fun r => (r.name, r.size.toNat))] }) by
      simp [extract_chd_multi, bind_eval, fsAct_eval, hfs, pure_eval])]
    rw [bind_ok (hash_tracks_ok env header alg hfs _ hashes _ hht)]
    simp only [List.append_assoc, List.singleton_append, List.map_map]
    rfl
  obtain ⟨op, hmtt, hop⟩ := move_to_trash_ok env romDir system chdPath
    { st₀ with fs := (st₀.fs ++ [.chdExtract chdPath env.tmpDir
        (roms.map fun r => (r.name, r.size.toNat))])
      ++ ((roms.map fun r => (r.name, r.size.toNat)).map
          fun ns => FsOp.removeFile (env.tmpDir ++ [ns.1])) } (hfs _)
  have h3 : chd_multi_finish env romDir sysDir system chdPath
      (setExtPath chdPath CUE_EXTENSION) cueRom roms hashes
      { st₀ with fs := (st₀.fs ++ [.chdExtract chdPath env.tmpDir
          (roms.map fun r => (r.name, r.size.toNat))])
        ++ ((roms.map fun r => (r.name, r.size.toNat)).map
            fun ns => FsOp.removeFile (env.tmpDir ++ [ns.1])) }
      = (.ok (), dbWrite op { st₀ with fs := ((st₀.fs
          ++ [.chdExtract chdPath env.tmpDir
              (roms.map fun r => (r.name, r.size.toNat))])
          ++ ((roms.map fun r => (r.name, r.size.toNat)).map
              fun ns => FsOp.removeFile (env.tmpDir ++ [ns.1])))
          ++ [.rename chdPath
              (trashDirectory romDir system ++ [pathFileName chdPath])] }) := by
    unfold chd_multi_finish
    rw [hmm]
    exact hmtt
  have hrun := (h1.trans h2).trans h3
  obtain ⟨hopr, hoprf⟩ := applyDbOp_path_effects
    (st₀.cat) op (trashDirectory romDir system ++ [pathFileName chdPath]) hop
  refine ⟨by rw [hrun], ?_, ?_, ?_, ?_⟩
  · rw [hrun]
    show (dbWrite op _).fs = _
    simp [dbWrite, List.append_assoc]
  · rw [hrun]
    show (applyDbOp st₀.cat op).roms = st₀.cat.roms
    exact hopr
  · rw [hrun]
    intro rf hrf
    exact hoprf rf hrf
  · rw [hrun]
    intro dst hmem
    have hmem' : FsOp.rename (setExtPath chdPath CUE_EXTENSION) dst ∈
        ((st₀.fs ++ [FsOp.chdExtract chdPath env.tmpDir
            (roms.map fun r => (r.name, r.size.toNat))])
          ++ ((roms.map fun r => (r.name, r.size.toNat)).map
              fun ns => FsOp.removeFile (env.tmpDir ++ [ns.1])))
          ++ [FsOp.rename chdPath
              (trashDirectory romDir system ++ [pathFileName chdPath])] := hmem
    rcases List.mem_append.mp hmem' with h | h
    · rcases List.mem_append.mp h with h' | h'
      · rcases List.mem_append.mp h' with h'' | h''
        · exact Or.inl h''
        · simp at h''
      · obtain ⟨ns, _, hns⟩ := List.mem_map.mp h'
        simp at hns
    · have heq := List.mem_singleton.mp h
      injection heq with ha hb
      exact Or.inr ha

/-- Concrete instance of C6: a cue-backed image whose sole track hashes to a
wrong digest is quarantined whole and the import succeeds. -/
theorem c6_multitrack_mismatch_witness :
    (import_chd envCue ["roms"] (["roms", "S"]) sysA none (["inbox", "g.chd"])
        .crc ⟨catCue, [], []⟩).1 = .ok () :=
  (c6_multitrack_mismatch envCue ["roms"] (["roms", "S"]) sysA none
    (["inbox", "g.chd"]) .crc ⟨catCue, [], []⟩ (20, "11111111") cueRomW
    [trackRomW] ["33333333"] (by decide) (by decide) (by decide) (by decide)
    (fun _ => rfl) (List.Forall₂.cons ⟨100, by decide⟩ List.Forall₂.nil)
    (by decide)).1

/-! ## C8: transaction scope of the import flow

`Consistent m` is the invariant the transaction machinery relies on: every
computation of the import flow only appends to the write trace, and its
catalog view is exactly that trace replayed over the starting view. Hence
`import_rom`'s commit publishes precisely the body's writes, and dropping
the trace on the error path rolls the catalog back. -/

theorem applyOps_append (c : Catalog) (l₁ l₂ : List DbOp) :
    applyOps c (l₁ ++ l₂) = applyOps (applyOps c l₁) l₂ := by
  simp [applyOps, List.foldl_append]

theorem consistent_of_state_id {α : Type} (m : M α)
    (h : ∀ st, (m st).2 = st) : Consistent m := fun st =>
  ⟨[], by rw [h st, List.append_nil], by rw [h st]; rfl⟩

theorem consistent_pure {α : Type} (a : α) : Consistent (pure a : M α) :=
  consistent_of_state_id _ fun _ => rfl

theorem consistent_bind {α β : Type} {x : M α} {f : α → M β}
    (hx : Consistent x) (hf : ∀ a, Consistent (f a)) : Consistent (x >>= f) := by
  intro st
  obtain ⟨n₁, hops₁, hcat₁⟩ := hx st
  rcases hrun : x st with ⟨res, st₁⟩
  simp only [hrun] at hops₁ hcat₁
  cases res with
  | error e =>
    exact ⟨n₁, by rw [bind_error hrun]; exact hops₁,
      by rw [bind_error hrun]; exact hcat₁⟩
  | ok a =>
    obtain ⟨n₂, hops₂, hcat₂⟩ := hf a st₁
    refine ⟨n₁ ++ n₂, ?_, ?_⟩
    · rw [bind_ok hrun, hops₂, hops₁, List.append_assoc]
    · rw [bind_ok hrun, hcat₂, hcat₁, applyOps_append]

theorem consistent_ite {c : Prop} [Decidable c] {α : Type} {x y : M α}
    (hx : Consistent x) (hy : Consistent y) : Consistent (if c then x else y) := by
  by_cases h : c
  · rwa [if_pos h]
  · rwa [if_neg h]

theorem consistent_fsAct (env : Env) (op : FsOp) : Consistent (fsAct env op) := by
  intro st
  refine ⟨[], ?_, ?_⟩ <;> rw [fsAct_eval] <;> cases env.fsOk op <;> simp [applyOps]

theorem consistent_rename_file (env : Env) (src dst : FilePath') :
    Consistent (rename_file env src dst) := consistent_fsAct env _

theorem consistent_copy_file (env : Env) (src dst : FilePath') :
    Consistent (copy_file env src dst) := consistent_fsAct env _

theorem consistent_remove_file (env : Env) (p : FilePath') :
    Consistent (remove_file env p) := consistent_fsAct env _

theorem consistent_rename_in_archive (env : Env) (a : FilePath')
    (oldName newName : String) :
    Consistent (rename_in_archive env a oldName newName) := consistent_fsAct env _

theorem consistent_getCat : Consistent getCat :=
  consistent_of_state_id _ fun _ => rfl

theorem consistent_parse_archive (env : Env) (p : FilePath') :
    Consistent (parse_archive env p) :=
  consistent_of_state_id _ fun st => by
    rw [parse_archive_eval]
    cases env.parseArchive p <;> rfl

theorem consistent_get_size_and_hash (env : Env) (p : FilePath')
    (header : Option Header) (alg : HashAlgorithm) :
    Consistent (get_size_and_hash env p header alg) :=
  consistent_of_state_id _ fun st => by
    rw [get_size_and_hash_eval]
    cases env.sizeHash p header alg <;> rfl

theorem consistent_find_rom_by_hash (env : Env) (size : Nat) (hash : String)
    (system : Sys) (alg : HashAlgorithm) :
    Consistent (find_rom_by_hash env size hash system alg) :=
  consistent_of_state_id _ (find_rom_by_hash_state env size hash system alg)

theorem consistent_extract_from_archive (env : Env) (archive : FilePath')
    (entry : String) (dir : FilePath') :
    Consistent (extract_from_archive env archive entry dir) := by
  unfold extract_from_archive
  exact consistent_bind (consistent_fsAct env _) fun _ => consistent_pure _

theorem consistent_extract_chd_multi (env : Env) (chd dir : FilePath')
    (namesSizes : List (String × Nat)) :
    Consistent (extract_chd_multi env chd dir namesSizes) := by
  unfold extract_chd_multi
  exact consistent_bind (consistent_fsAct env _) fun _ => consistent_pure _

theorem consistent_decode_whole (env : Env) (src dir : FilePath') :
    Consistent (decode_whole env src dir) := by
  unfold decode_whole
  exact consistent_bind (consistent_fsAct env _) fun _ => consistent_pure _

theorem dbWrite_foldl_trace (rfId : Nat) (roms : List Rom) :
    ∀ st : St,
    (roms.foldl (fun s rom => dbWrite (.updateRomRomfile rom.id (some rfId)) s)
        st).ops
      = st.ops ++ roms.map (fun rom => DbOp.updateRomRomfile rom.id (some rfId)) ∧
    (roms.foldl (fun s rom => dbWrite (.updateRomRomfile rom.id (some rfId)) s)
        st).cat
      = applyOps st.cat
          (roms.map fun rom => DbOp.updateRomRomfile rom.id (some rfId)) := by
  induction roms with
  | nil => intro st; exact ⟨by simp, rfl⟩
  | cons r rs ih =>
    intro st
    simp only [List.foldl_cons, List.map_cons]
    obtain ⟨h1, h2⟩ := ih (dbWrite (.updateRomRomfile r.id (some rfId)) st)
    constructor
    · rw [h1]
      simp [dbWrite]
    · rw [h2]
      simp [dbWrite, applyOps]

theorem consistent_create_or_update (env : Env) (path : FilePath')
    (roms : List Rom) : Consistent (create_or_update_romfile env path roms) := by
  intro st
  simp only [create_or_update_romfile]
  cases hfind : findRomfileByPath st.cat path with
  | some rf =>
    obtain ⟨h1, h2⟩ := dbWrite_foldl_trace rf.id roms
      (dbWrite (.updateRomfile rf.id rf.path (env.fileLen path)) st)
    refine ⟨DbOp.updateRomfile rf.id rf.path (env.fileLen path)
        :: roms.map (fun rom => DbOp.updateRomRomfile rom.id (some rf.id)),
      ?_, ?_⟩
    · simp only [hfind]
      rw [h1]
      simp [dbWrite]
    · simp only [hfind]
      rw [h2]
      simp [dbWrite, applyOps]
  | none =>
    obtain ⟨h1, h2⟩ := dbWrite_foldl_trace st.cat.nextRomfileId roms
      (dbWrite (.createRomfile path (env.fileLen path)) st)
    refine ⟨DbOp.createRomfile path (env.fileLen path)
        :: roms.map
          (fun rom => DbOp.updateRomRomfile rom.id (some st.cat.nextRomfileId)),
      ?_, ?_⟩
    · simp only [hfind]
      rw [h1]
      simp [dbWrite]
    · simp only [hfind]
      rw [h2]
      simp [dbWrite, applyOps]

theorem consistent_move_to_trash (env : Env) (romDir : FilePath') (system : Sys)
    (p : FilePath') : Consistent (move_to_trash env romDir system p) := by
  simp only [move_to_trash]
  refine consistent_bind (consistent_rename_file env p _) fun _ => ?_
  intro st
  cases hfind : findRomfileByPath st.cat
      (trashDirectory romDir system ++ [pathFileName p]) with
  | some rf =>
    refine ⟨[DbOp.updateRomfile rf.id
        (trashDirectory romDir system ++ [pathFileName p])
        (env.fileLen (trashDirectory romDir system ++ [pathFileName p]))],
      ?_, ?_⟩
    · simp [hfind, dbWrite]
    · simp [hfind, dbWrite, applyOps]
  | none =>
    refine ⟨[DbOp.createRomfile
        (trashDirectory romDir system ++ [pathFileName p])
        (env.fileLen (trashDirectory romDir system ++ [pathFileName p]))],
      ?_, ?_⟩
    · simp [hfind, dbWrite]
    · simp [hfind, dbWrite, applyOps]

theorem consistent_entry_size_hash (env : Env) (header : Option Header)
    (alg : HashAlgorithm) (archivePath : FilePath') (info : ArchiveInfo) :
    Consistent (entry_size_hash env header alg archivePath info) := by
  unfold entry_size_hash
  apply consistent_ite
  · refine consistent_bind
      (consistent_extract_from_archive env archivePath info.path env.tmpDir)
      fun extracted => ?_
    refine consistent_bind (consistent_get_size_and_hash env extracted header alg)
      fun sh => ?_
    exact consistent_bind (consistent_remove_file env extracted)
      fun _ => consistent_pure _
  · exact consistent_pure _

theorem consistent_resolveEntries (env : Env) (romDir : FilePath') (system : Sys)
    (header : Option Header) (alg : HashAlgorithm) (archivePath : FilePath')
    (total : Nat) :
    ∀ (infos : List ArchiveInfo) (pairs : List (Rom × ArchiveInfo))
      (gids : List Nat),
      Consistent (resolveEntries env romDir system header alg archivePath total
        infos pairs gids)
  | [], _, _ => consistent_pure _
  | info :: rest, pairs, gids => by
    rw [resolveEntries]
    refine consistent_bind
      (consistent_entry_size_hash env header alg archivePath info) fun sh => ?_
    refine consistent_bind (consistent_find_rom_by_hash env sh.1 sh.2 system alg)
      fun rom? => ?_
    cases rom? with
    | some rom =>
      exact consistent_resolveEntries env romDir system header alg archivePath
        total rest _ _
    | none =>
      exact consistent_ite
        (consistent_bind (consistent_move_to_trash env romDir system archivePath)
          fun _ => consistent_resolveEntries env romDir system header alg
            archivePath total rest _ _)
        (consistent_bind (consistent_pure _)
          fun _ => consistent_resolveEntries env romDir system header alg
            archivePath total rest _ _)

theorem consistent_rename_mismatched (env : Env) (archivePath : FilePath') :
    ∀ pairs : List (Rom × ArchiveInfo),
      Consistent (rename_mismatched env archivePath pairs)
  | [] => consistent_pure _
  | (rom, info) :: rest => by
    rw [rename_mismatched]
    exact consistent_ite
      (consistent_bind
        (consistent_rename_in_archive env archivePath info.path rom.name)
        fun _ => consistent_rename_mismatched env archivePath rest)
      (consistent_bind (consistent_pure _)
        fun _ => consistent_rename_mismatched env archivePath rest)

theorem consistent_per_entry_place (env : Env) (sysDir : FilePath')
    (system : Sys) (romfileExtension : String) (archivePath : FilePath') :
    ∀ pairs : List (Rom × ArchiveInfo),
      Consistent (per_entry_place env sysDir system romfileExtension archivePath
        pairs)
  | [] => consistent_pure _
  | (rom, info) :: rest => by
    rw [per_entry_place]
    refine consistent_bind
      (consistent_extract_from_archive env archivePath info.path env.tmpDir)
      fun extracted => ?_
    refine consistent_bind consistent_getCat fun cat => ?_
    refine consistent_bind (consistent_copy_file env extracted _) fun _ => ?_
    refine consistent_bind (consistent_create_or_update env _ [rom]) fun _ => ?_
    exact consistent_per_entry_place env sysDir system romfileExtension
      archivePath rest

theorem consistent_repack_chain (env : Env) (archivePath dest : FilePath')
    (pairs : List (Rom × ArchiveInfo)) :
    Consistent (do
      rename_mismatched env archivePath pairs
      rename_file env archivePath dest
      create_or_update_romfile env dest (pairs.map (·.1)) : M Unit) := by
  refine consistent_bind (consistent_rename_mismatched env archivePath pairs)
    fun _ => ?_
  refine consistent_bind (consistent_rename_file env archivePath dest)
    fun _ => ?_
  exact consistent_create_or_update env dest _

theorem consistent_archive_place (env : Env) (sysDir : FilePath') (system : Sys)
    (romfileExtension : String) (archivePath : FilePath') (infosLen : Nat)
    (pairs : List (Rom × ArchiveInfo)) (gids : List Nat) :
    Consistent (archive_place env sysDir system romfileExtension archivePath
      infosLen pairs gids) := by
  intro st
  unfold archive_place
  split
  · split
    · exact consistent_repack_chain env archivePath
        (repack_path sysDir system romfileExtension
          (findGameById st.cat (gids.getLastD 0)).name pairs) pairs st
    · exact consistent_per_entry_place env sysDir system romfileExtension
        archivePath pairs st
  · exact consistent_per_entry_place env sysDir system romfileExtension
      archivePath pairs st

theorem consistent_import_archive (env : Env) (romDir sysDir : FilePath')
    (system : Sys) (header : Option Header) (archivePath : FilePath')
    (romfileExtension : String) (alg : HashAlgorithm) :
    Consistent (import_archive env romDir sysDir system header archivePath
      romfileExtension alg) := by
  unfold import_archive
  refine consistent_bind (consistent_parse_archive env archivePath)
    fun infos => ?_
  refine consistent_bind
    (consistent_resolveEntries env romDir system header alg archivePath
      infos.length infos [] []) fun pg => ?_
  obtain ⟨pairs, gids⟩ := pg
  exact consistent_archive_place env sysDir system romfileExtension archivePath
    infos.length pairs gids

theorem consistent_hash_tracks (env : Env) (header : Option Header)
    (alg : HashAlgorithm) :
    ∀ paths : List FilePath', Consistent (hash_tracks env header alg paths)
  | [] => consistent_pure _
  | p :: rest => by
    rw [hash_tracks]
    refine consistent_bind (consistent_get_size_and_hash env p header alg)
      fun sh => ?_
    refine consistent_bind (consistent_remove_file env p) fun _ => ?_
    refine consistent_bind (consistent_hash_tracks env header alg rest)
      fun hs => ?_
    exact consistent_pure _

theorem consistent_chd_multi_finish (env : Env) (romDir sysDir : FilePath')
    (system : Sys) (chdPath cuePath : FilePath') (cueRom : Rom)
    (roms : List Rom) (hashes : List String) :
    Consistent (chd_multi_finish env romDir sysDir system chdPath cuePath
      cueRom roms hashes) := by
  unfold chd_multi_finish
  split
  · exact consistent_of_state_id _ fun _ => rfl
  · exact consistent_move_to_trash env romDir system chdPath
  · refine consistent_bind (consistent_rename_file env cuePath _) fun _ => ?_
    refine consistent_bind (consistent_rename_file env chdPath _) fun _ => ?_
    refine consistent_bind (consistent_create_or_update env _ [cueRom])
      fun _ => ?_
    exact consistent_create_or_update env _ roms

theorem consistent_chd_multi_mode (env : Env) (romDir sysDir : FilePath')
    (system : Sys) (header : Option Header) (alg : HashAlgorithm)
    (chdPath cuePath : FilePath') :
    ∀ cueRom? : Option Rom,
      Consistent (chd_multi_mode env romDir sysDir system header alg chdPath
        cuePath cueRom?)
  | none => consistent_move_to_trash env romDir system cuePath
  | some cueRom => by
    rw [chd_multi_mode]
    refine consistent_bind consistent_getCat fun cat => ?_
    refine consistent_bind (consistent_extract_chd_multi env chdPath env.tmpDir _)
      fun binPaths => ?_
    refine consistent_bind (consistent_hash_tracks env header alg binPaths)
      fun hashes => ?_
    exact consistent_chd_multi_finish env romDir sysDir system chdPath cuePath
      cueRom _ hashes

theorem consistent_import_chd (env : Env) (romDir sysDir : FilePath')
    (system : Sys) (header : Option Header) (chdPath : FilePath')
    (alg : HashAlgorithm) :
    Consistent (import_chd env romDir sysDir system header chdPath alg) := by
  unfold import_chd
  refine consistent_ite ?_ ?_
  · refine consistent_bind (consistent_get_size_and_hash env _ header alg)
      fun sh => ?_
    refine consistent_bind (consistent_find_rom_by_hash env sh.1 sh.2 system alg)
      fun cueRom? => ?_
    exact consistent_chd_multi_mode env romDir sysDir system header alg chdPath
      _ cueRom?
  · refine consistent_bind (consistent_decode_whole env chdPath env.tmpDir)
      fun binPath => ?_
    refine consistent_bind (consistent_get_size_and_hash env binPath header alg)
      fun sh => ?_
    refine consistent_bind (consistent_remove_file env binPath) fun _ => ?_
    refine consistent_bind (consistent_find_rom_by_hash env sh.1 sh.2 system alg)
      fun rom? => ?_
    cases rom? with
    | none => exact consistent_move_to_trash env romDir system chdPath
    | some rom =>
      refine consistent_bind (consistent_rename_file env chdPath _) fun _ => ?_
      exact consistent_create_or_update env _ [rom]

theorem consistent_import_cso (env : Env) (romDir sysDir : FilePath')
    (system : Sys) (header : Option Header) (csoPath : FilePath')
    (alg : HashAlgorithm) :
    Consistent (import_cso env romDir sysDir system header csoPath alg) := by
  unfold import_cso
  refine consistent_bind (consistent_decode_whole env csoPath env.tmpDir)
    fun isoPath => ?_
  refine consistent_bind (consistent_get_size_and_hash env isoPath header alg)
    fun sh => ?_
  refine consistent_bind (consistent_remove_file env isoPath) fun _ => ?_
  refine consistent_bind (consistent_find_rom_by_hash env sh.1 sh.2 system alg)
    fun rom? => ?_
  cases rom? with
  | none => exact consistent_move_to_trash env romDir system csoPath
  | some rom =>
    refine consistent_bind (consistent_rename_file env csoPath _) fun _ => ?_
    exact consistent_create_or_update env _ [rom]

theorem consistent_import_rvz (env : Env) (romDir sysDir : FilePath')
    (system : Sys) (header : Option Header) (rvzPath : FilePath')
    (alg : HashAlgorithm) :
    Consistent (import_rvz env romDir sysDir system header rvzPath alg) := by
  unfold import_rvz
  refine consistent_bind (consistent_decode_whole env rvzPath env.tmpDir)
    fun isoPath => ?_
  refine consistent_bind (consistent_get_size_and_hash env isoPath header alg)
    fun sh => ?_
  refine consistent_bind (consistent_remove_file env isoPath) fun _ => ?_
  refine consistent_bind (consistent_find_rom_by_hash env sh.1 sh.2 system alg)
    fun rom? => ?_
  cases rom? with
  | none => exact consistent_move_to_trash env romDir system rvzPath
  | some rom =>
    refine consistent_bind (consistent_rename_file env rvzPath _) fun _ => ?_
    exact consistent_create_or_update env _ [rom]

theorem consistent_import_other (env : Env) (romDir sysDir : FilePath')
    (system : Sys) (header : Option Header) (path : FilePath')
    (romfileExtension : String) (alg : HashAlgorithm) :
    Consistent (import_other env romDir sysDir system header path
      romfileExtension alg) := by
  unfold import_other
  refine consistent_bind (consistent_get_size_and_hash env path header alg)
    fun sh => ?_
  refine consistent_bind (consistent_find_rom_by_hash env sh.1 sh.2 system alg)
    fun rom? => ?_
  cases rom? with
  | none => exact consistent_move_to_trash env romDir system path
  | some rom =>
    refine consistent_bind consistent_getCat fun cat => ?_
    refine consistent_bind (consistent_rename_file env path _) fun _ => ?_
    exact consistent_create_or_update env _ [rom]

theorem consistent_import_rom_body (env : Env) (romDir : FilePath')
    (system : Sys) (header : Option Header) (path : FilePath')
    (alg : HashAlgorithm) :
    Consistent (import_rom_body env romDir system header path alg) := by
  intro st
  simp only [import_rom_body]
  split
  · exact ⟨[], (List.append_nil st.ops).symm, rfl⟩
  · split
    · exact consistent_import_archive env romDir _ system header path _ alg st
    · split
      · exact consistent_import_chd env romDir _ system header path alg st
      · split
        · exact consistent_import_cso env romDir _ system header path alg st
        · split
          · exact consistent_import_rvz env romDir _ system header path alg st
          · exact consistent_import_other env romDir _ system header path _
              alg st

/-- **C8**: every top-level input runs inside exactly one transaction —
(i) if any step of the body fails, `import_rom` returns that error with the
catalog unchanged, so none of the catalog writes made for that input are
persisted (only filesystem effects remain); (ii) if the body succeeds,
`import_rom` commits, and the committed catalog is exactly the body's write
trace replayed over the input catalog; (iii) across the `main` loop over
the input paths, the final catalog always equals the catalog produced by a
successfully imported prefix of the inputs — a failing input leaves every
earlier committed input untouched. -/
theorem c8_transaction (env : Env) (romDir : FilePath') (system : Sys)
    (header : Option Header) (alg : HashAlgorithm) :
    (∀ (path : FilePath') (c : Catalog) (fs₀ : List FsOp) (e : RErr) (st : St),
      import_rom_body env romDir system header path alg ⟨c, [], fs₀⟩
          = (.error e, st) →
      import_rom env romDir system header path alg c fs₀
          = (.error e, c, st.fs)) ∧
    (∀ (path : FilePath') (c : Catalog) (fs₀ : List FsOp) (st : St),
      import_rom_body env romDir system header path alg ⟨c, [], fs₀⟩
          = (.ok (), st) →
      import_rom env romDir system header path alg c fs₀
          = (.ok (), st.cat, st.fs) ∧ st.cat = applyOps c st.ops) ∧
    (∀ (paths : List FilePath') (c : Catalog) (fs₀ : List FsOp),
      ∃ k, (importRoms env romDir system header alg (paths.take k) c fs₀).1
          = .ok () ∧
        (importRoms env romDir system header alg paths c fs₀).2.1
          = (importRoms env romDir system header alg (paths.take k) c fs₀).2.1) := by
  refine ⟨?_, ?_, ?_⟩
  · intro path c fs₀ e st h
    simp only [import_rom, h]
  · intro path c fs₀ st h
    obtain ⟨n, hops, hcat⟩ :=
      consistent_import_rom_body env romDir system header path alg ⟨c, [], fs₀⟩
    simp only [h, List.nil_append] at hops hcat
    refine ⟨by simp only [import_rom, h], ?_⟩
    rw [hops]
    exact hcat
  · intro paths
    induction paths with
    | nil => intro c fs₀; exact ⟨0, rfl, rfl⟩
    | cons p rest ih =>
      intro c fs₀
      rcases hbody : import_rom_body env romDir system header p alg ⟨c, [], fs₀⟩
        with ⟨bres, bst⟩
      cases bres with
      | ok a =>
        obtain ⟨k, hok, hcat⟩ := ih bst.cat bst.fs
        refine ⟨k + 1, ?_, ?_⟩
        · rw [List.take_succ_cons]
          simp only [importRoms, import_rom, hbody]
          exact hok
        · rw [List.take_succ_cons]
          simp only [importRoms, import_rom, hbody]
          exact hcat
      | error e =>
        refine ⟨0, rfl, ?_⟩
        simp only [List.take_zero, importRoms, import_rom, hbody]

/-- Concrete instance of C8: with no archive tool behind it, importing
`inbox/x.7z` fails inside the body, and `import_rom` surfaces the error
with the catalog rolled back to its input value. -/
theorem c8_transaction_witness :
    import_rom envBase ["roms"] sysA none ["inbox", "x.7z"] HashAlgorithm.crc
      catA [] = (.error (.err "not an archive"), catA, []) :=
  (c8_transaction envBase ["roms"] sysA none HashAlgorithm.crc).1
    ["inbox", "x.7z"] catA [] (.err "not an archive") ⟨catA, [], []⟩ (by decide)

/-! ## C3: the check flow's classification and confirmation gate -/

theorem collect_moves_run (env : Env) (header : Option Header)
    (trashDir : FilePath') (romsOf : Romfile → List Rom) (b : Romfile → Bool) :
    ∀ rfs : List Romfile,
      (∀ rf ∈ rfs, CheckStepRes (classify_romfile env header rf (romsOf rf))
        (.ok (b rf))) →
      CheckStepRes (collect_moves env header trashDir romsOf rfs)
        (.ok ((rfs.filter fun rf => !(b rf)).map
          fun rf => (rf, trashDir ++ [pathFileName rf.path]))) := by
  intro rfs
  induction rfs with
  | nil =>
    intro _
    exact ⟨[], by simp, fun st => by simp [collect_moves, pure_eval]⟩
  | cons rf rest ih =>
    intro hcls
    obtain ⟨Δ₁, hn₁, hrun₁⟩ := hcls rf (List.mem_cons_self rf rest)
    obtain ⟨Δ₂, hn₂, hrun₂⟩ :=
      ih fun rf' h' => hcls rf' (List.mem_cons_of_mem rf h')
    refine ⟨Δ₁ ++ Δ₂, ?_, ?_⟩
    · intro src dst hmem
      rcases List.mem_append.mp hmem with h | h
      · exact hn₁ src dst h
      · exact hn₂ src dst h
    · intro st
      simp only [collect_moves, bind_eval, hrun₁ st, hrun₂, pure_eval]
      by_cases hb : b rf
      · simp [hb, List.filter_cons, List.append_assoc]
      · simp [hb, List.filter_cons, List.append_assoc]

theorem apply_moves_run (env : Env) (hfs : ∀ op, env.fsOk op = none) :
    ∀ (moves : List (Romfile × FilePath')) (st : St),
      apply_moves env moves st
        = (.ok (), { st with
            cat := applyOps st.cat
              (moves.map fun mv => DbOp.updateRomfilePath mv.1.id mv.2),
            ops := st.ops
              ++ moves.map fun mv => DbOp.updateRomfilePath mv.1.id mv.2,
            fs := st.fs ++ moves.map fun mv => FsOp.rename mv.1.path mv.2 }) := by
  intro moves
  induction moves with
  | nil => intro st; simp [apply_moves, pure_eval, applyOps]
  | cons mv rest ih =>
    intro st
    obtain ⟨rf, newPath⟩ := mv
    simp only [apply_moves, bind_eval, rename_file, fsAct_eval, hfs, dbWriteM, ih]
    simp [dbWrite, applyOps, List.foldl_cons, List.append_assoc]

theorem applyOps_update_rows :
    ∀ (mvs : List (Romfile × FilePath')) (c : Catalog),
      ∀ rf ∈ (applyOps c
          (mvs.map fun mv => DbOp.updateRomfilePath mv.1.id mv.2)).romfiles,
        rf ∈ c.romfiles ∨ ∃ mv ∈ mvs, rf.id = mv.1.id ∧ rf.path = mv.2 := by
  intro mvs
  induction mvs with
  | nil => intro c rf h; exact Or.inl h
  | cons mv rest ih =>
    intro c rf h
    have h' : rf ∈ (applyOps
        (applyDbOp c (DbOp.updateRomfilePath mv.1.id mv.2))
        (rest.map fun mv => DbOp.updateRomfilePath mv.1.id mv.2)).romfiles := h
    rcases ih (applyDbOp c (DbOp.updateRomfilePath mv.1.id mv.2)) rf h' with
      hin | ⟨mv', hmv', hid, hp⟩
    · have hin' : rf ∈ c.romfiles.map (fun x =>
          if x.id == mv.1.id then { x with path := mv.2 } else x) := hin
      obtain ⟨x, hx, hxeq⟩ := List.mem_map.mp hin'
      by_cases hb : (x.id == mv.1.id) = true
      · right
        refine ⟨mv, List.mem_cons_self mv rest, ?_, ?_⟩
        · rw [← hxeq]
          simp [hb, beq_iff_eq.mp hb]
        · rw [← hxeq]
          simp [hb]
      · left
        rw [← hxeq]
        simpa [hb] using hx
    · exact Or.inr ⟨mv', List.mem_cons_of_mem mv hmv', hid, hp⟩

/-- **C3**: in the check flow, a plain record is classified Invalid exactly
when the re-hashed size or digest disagrees with its backing rom (B1), and
an archive whose entry count differs from its backing rom count is Invalid
outright (B2); the Invalid records are batched into a (record, trash path)
list, and — writing `mvs` for that batch — (1) when nothing is Invalid the
run succeeds with the catalog untouched and no file moved; (2) when
confirmation is refused the catalog is likewise untouched and no file
moved; (3) only upon confirmation is every batched file renamed to its
per-system Trash path, with each moved record's row updated to that trash
path. -/
theorem c3_check_flow (env : Env) (romDir : FilePath') (system : Sys)
    (c : Catalog) (fs₀ : List FsOp) (b : Romfile → Bool)
    (mvs : List (Romfile × FilePath'))
    (hcls : ∀ rf ∈ romfilesBySystem c system.id,
      CheckStepRes
        (classify_romfile env (findHeaderBySystemId c system.id) rf
          ((romsWithRomfileBySystem c system.id).filter
            fun r : Rom => r.romfileId == some rf.id))
        (.ok (b rf)))
    (hM : mvs = ((romfilesBySystem c system.id).filter fun rf => !(b rf)).map
      fun rf => (rf, trashDirectory romDir system ++ [pathFileName rf.path])) :
    (mvs = [] → ∃ stF, check_system env romDir system c fs₀ = (.ok (), stF) ∧
      stF.cat = c ∧ stF.ops = [] ∧
      ∀ src dst, FsOp.rename src dst ∈ stF.fs → FsOp.rename src dst ∈ fs₀) ∧
    (env.confirm = false →
      ∃ stF, check_system env romDir system c fs₀ = (.ok (), stF) ∧
        stF.cat = c ∧ stF.ops = [] ∧
        ∀ src dst, FsOp.rename src dst ∈ stF.fs → FsOp.rename src dst ∈ fs₀) ∧
    (env.confirm = true → (∀ op, env.fsOk op = none) →
      ∃ stF Δ, check_system env romDir system c fs₀ = (.ok (), stF) ∧
        (∀ src dst, FsOp.rename src dst ∉ Δ) ∧
        stF.fs = (fs₀ ++ Δ) ++ mvs.map (fun mv => FsOp.rename mv.1.path mv.2) ∧
        stF.cat
          = applyOps c (mvs.map fun mv => DbOp.updateRomfilePath mv.1.id mv.2) ∧
        ∀ rf ∈ stF.cat.romfiles,
          rf ∈ c.romfiles ∨ ∃ mv ∈ mvs, rf.id = mv.1.id ∧ rf.path = mv.2) ∧
    (∀ (header : Option Header) (p : FilePath') (rom : Rom) (sc : Nat × String)
        (st : St), env.sizeHash p header HashAlgorithm.crc = .ok sc →
      check_other env header p rom st
          = (.ok ((sc.1 : Int) == rom.size && rom.crc == some sc.2), st) ∧
        (((sc.1 : Int) == rom.size && rom.crc == some sc.2) = false
          ↔ ((sc.1 : Int) ≠ rom.size ∨ rom.crc ≠ some sc.2))) ∧
    (∀ (header : Option Header) (p : FilePath') (roms : List Rom)
        (infos : List ArchiveInfo) (st : St), env.parseArchive p = .ok infos →
      infos.length ≠ roms.length →
      check_archive env header p roms st = (.ok false, st)) := by
  obtain ⟨Δc, hnc, hcm⟩ := collect_moves_run env (findHeaderBySystemId c system.id)
    (trashDirectory romDir system)
    (fun rf => (romsWithRomfileBySystem c system.id).filter
      fun r : Rom => r.romfileId == some rf.id) b
    (romfilesBySystem c system.id) hcls
  rw [← hM] at hcm
  have hren : ∀ src dst, FsOp.rename src dst ∈ fs₀ ++ Δc →
      FsOp.rename src dst ∈ fs₀ := by
    intro src dst h
    rcases List.mem_append.mp h with h | h
    · exact h
    · exact absurd h (hnc src dst)
  refine ⟨?_, ?_, ?_, ?_, ?_⟩
  · intro hempty
    refine ⟨⟨c, [], fs₀ ++ Δc⟩, ?_, rfl, rfl, hren⟩
    simp [check_system, bind_eval, getCat, hcm, hempty, pure_eval]
  · intro hconf
    refine ⟨⟨c, [], fs₀ ++ Δc⟩, ?_, rfl, rfl, hren⟩
    simp [check_system, bind_eval, getCat, hcm, hconf, pure_eval, ite_self]
  · intro hconf hfs
    cases hemp : mvs.isEmpty with
    | true =>
      have hnil : mvs = [] := by
        cases mvs with
        | nil => rfl
        | cons a l => simp [List.isEmpty] at hemp
      refine ⟨⟨c, [], fs₀ ++ Δc⟩, Δc, ?_, hnc, ?_, ?_, ?_⟩
      · simp [check_system, bind_eval, getCat, hcm, hnil, pure_eval]
      · simp [hnil]
      · simp [hnil, applyOps]
      · intro rf hrf
        exact Or.inl hrf
    | false =>
      refine ⟨St.mk
          (applyOps c (mvs.map fun mv => DbOp.updateRomfilePath mv.1.id mv.2))
          (mvs.map fun mv => DbOp.updateRomfilePath mv.1.id mv.2)
          ((fs₀ ++ Δc) ++ mvs.map fun mv => FsOp.rename mv.1.path mv.2),
        Δc, ?_, hnc, rfl, rfl, ?_⟩
      · have hne : mvs ≠ [] := by
          intro h
          rw [h] at hemp
          simp at hemp
        simp [check_system, bind_eval, getCat, hcm, hne, hconf, pure_eval,
          apply_moves_run env hfs]
      · exact applyOps_update_rows mvs c
  · intro header p rom sc st hsh
    refine ⟨?_, ?_⟩
    · simp [check_other, bind_eval, get_size_and_hash_eval, hsh, pure_eval]
    · by_cases h1 : (sc.1 : Int) = rom.size <;>
        by_cases h2 : rom.crc = some sc.2 <;> simp [h1, h2]
  · intro header p roms infos st hparse hlen
    simp only [check_archive, bind_eval, parse_archive_eval, hparse]
    rw [if_pos (bne_iff_ne.mpr hlen)]
    rfl

/-- Concrete instance of C3: a filed rom whose file re-hashes to a wrong
size is reclassified Invalid and, with auto-confirm set, the file is moved
under `Trash` and its romfile row's path updated to the trash path. -/
theorem c3_check_flow_witness :
    ∃ stF Δ, check_system envW ["roms"] sysA catW [] = (.ok (), stF) ∧
      (∀ src dst, FsOp.rename src dst ∉ Δ) ∧
      stF.fs = ([] ++ Δ)
        ++ [(rfW, ["roms", "S", "Trash", "Test.rom"])].map
          (fun mv => FsOp.rename mv.1.path mv.2) ∧
      stF.cat = applyOps catW
        ([(rfW, ["roms", "S", "Trash", "Test.rom"])].map
          fun mv => DbOp.updateRomfilePath mv.1.id mv.2) ∧
      ∀ rf ∈ stF.cat.romfiles, rf ∈ catW.romfiles
        ∨ ∃ mv ∈ [(rfW, ["roms", "S", "Trash", "Test.rom"])],
            rf.id = mv.1.id ∧ rf.path = mv.2 :=
  (c3_check_flow envW ["roms"] sysA catW [] (fun _ => false)
      [(rfW, ["roms", "S", "Trash", "Test.rom"])]
      (fun rf hrf => by
        have hone : romfilesBySystem catW sysA.id = [rfW] := rfl
        rw [hone] at hrf
        rw [List.mem_singleton.mp hrf]
        exact ⟨[], by simp, fun st => by
          rw [show classify_romfile envW (findHeaderBySystemId catW sysA.id) rfW
              ((romsWithRomfileBySystem catW sysA.id).filter
                fun r : Rom => r.romfileId == some rfW.id) st
              = (.ok false, st) from rfl]
          simp⟩)
      rfl).2.2.1 rfl (fun _ => rfl)

end Oxyromon
